import Mathlib

/-
Verification of the rebalance3 planning and simulation core (bike-share
rebalancing: midnight allocator, truck day planner, bucketed replay
simulator).

Conventions of the shallow embedding:

* Python floats are modeled as exact rationals (ℚ).  All numeric claims are
  settled in exact arithmetic.
* Python station-id strings are modeled as natural numbers; the order on ℕ
  stands in for the lexicographic order on the id strings (the source sorts
  station ids only to break ties, and any order embedding is faithful there).
* A Python dict is modeled as its list of keys (in insertion order) together
  with a total function from keys to values; `fupd` is an in-place update,
  which preserves the key order exactly as a Python dict does.
* File input (CSV parsing, the station-registry JSON) happens at the boundary
  before the core runs; the embedding starts from the parsed rows.  A trip row
  carries its two timestamps as minutes relative to the local midnight of the
  modeled day (the source's `MM/DD/YYYY HH:MM` format has minute granularity,
  so this is exact).
* The source's `math.log1p` (station priority) and the haversine distance are
  transcendental; they are taken as parameters of the planner embedding, so
  every theorem about the planner holds for an arbitrary priority/distance
  function.  No claim depends on their values.

Rat arithmetic in Batteries is `@[irreducible]`; for kernel evaluation of the
embedded programs on concrete inputs we locally restore reducibility.
-/

attribute [local semireducible] Rat.add Rat.mul Rat.sub Rat.inv Rat.ofScientific

set_option maxRecDepth 40000

/-! ### Generic helpers: dict-as-function updates, sums over key lists,
stable sorting (Python's `sorted` / `list.sort` is a stable sort). -/

/-- Update one key of a dict modeled as a function. -/
def fupd {β : Type} (m : ℕ → β) (k : ℕ) (v : β) : ℕ → β :=
  fun s => if s = k then v else m s

/-- Sum of the values of a dict over its key list. -/
def keySum (keys : List ℕ) (m : ℕ → ℤ) : ℤ :=
  (keys.map m).sum

theorem fupd_same {β : Type} (m : ℕ → β) (k : ℕ) (v : β) : fupd m k v k = v := by
  simp [fupd]

theorem fupd_other {β : Type} (m : ℕ → β) (k : ℕ) (v : β) (s : ℕ) (h : s ≠ k) :
    fupd m k v s = m s := by
  simp [fupd, h]

theorem keySum_fupd_of_not_mem (keys : List ℕ) (m : ℕ → ℤ) (k : ℕ) (v : ℤ)
    (h : k ∉ keys) : keySum keys (fupd m k v) = keySum keys m := by
  induction keys with
  | nil => rfl
  | cons a l ih =>
    simp only [keySum, List.map_cons, List.sum_cons] at *
    have ha : a ≠ k := fun hak => h (hak ▸ List.mem_cons_self a l)
    rw [fupd_other m k v a ha, ih (fun hk => h (List.mem_cons_of_mem a hk))]

theorem keySum_fupd (keys : List ℕ) (m : ℕ → ℤ) (k : ℕ) (v : ℤ)
    (hmem : k ∈ keys) (hnd : keys.Nodup) :
    keySum keys (fupd m k v) = keySum keys m - m k + v := by
  induction keys with
  | nil => cases hmem
  | cons a l ih =>
    rcases List.mem_cons.1 hmem with h | h
    · subst h
      have hk : k ∉ l := (List.nodup_cons.1 hnd).1
      simp only [keySum, List.map_cons, List.sum_cons]
      rw [show fupd m k v k = v from fupd_same m k v,
        show (l.map (fupd m k v)).sum = (l.map m).sum from
          keySum_fupd_of_not_mem l m k v hk]
      ring
    · have hnd' : l.Nodup := (List.nodup_cons.1 hnd).2
      have ha : a ≠ k := fun hak => (List.nodup_cons.1 hnd).1 (hak ▸ h)
      have hih := ih h hnd'
      simp only [keySum, List.map_cons, List.sum_cons] at *
      rw [fupd_other m k v a ha, hih]
      ring

/-- Stable insertion used by `sortStable`. -/
def insStable {α : Type} (le : α → α → Bool) (a : α) : List α → List α
  | [] => [a]
  | b :: l => if le a b then a :: b :: l else b :: insStable le a l

/-- Stable sort; models Python's stable `sorted`/`list.sort` (an element is
inserted before the first already-placed element it compares `le` to, so
elements with equal keys keep their original relative order). -/
def sortStable {α : Type} (le : α → α → Bool) : List α → List α
  | [] => []
  | a :: l => insStable le a (sortStable le l)

theorem insStable_perm {α : Type} (le : α → α → Bool) (a : α) (l : List α) :
    (insStable le a l).Perm (a :: l) := by
  induction l with
  | nil => simp [insStable]
  | cons b t ih =>
    by_cases h : le a b
    · simp [insStable, h]
    · simp only [insStable, h, if_neg, Bool.false_eq_true, if_false]
      exact ((ih.cons b).trans (List.Perm.swap a b t))

theorem sortStable_perm {α : Type} (le : α → α → Bool) (l : List α) :
    (sortStable le l).Perm l := by
  induction l with
  | nil => simp [sortStable]
  | cons a t ih =>
    exact (insStable_perm le a (sortStable le t)).trans (ih.cons a)

theorem mem_sortStable {α : Type} (le : α → α → Bool) (l : List α) (x : α) :
    x ∈ sortStable le l ↔ x ∈ l :=
  (sortStable_perm le l).mem_iff

/-- An insertion into a `le`-pairwise list keeps it pairwise, provided `le` is
total and transitive. -/
theorem pairwise_insStable {α : Type} (le : α → α → Bool)
    (htot : ∀ x y, le x y = true ∨ le y x = true)
    (htrans : ∀ x y z, le x y = true → le y z = true → le x z = true)
    (a : α) (l : List α) (hl : l.Pairwise (fun x y => le x y = true)) :
    (insStable le a l).Pairwise (fun x y => le x y = true) := by
  induction l with
  | nil => simp [insStable]
  | cons b t ih =>
    rcases List.pairwise_cons.1 hl with ⟨hb, ht⟩
    by_cases h : le a b
    · simp only [insStable, h, if_true]
      refine List.pairwise_cons.2 ⟨?_, hl⟩
      intro y hy
      rcases List.mem_cons.1 hy with rfl | hy
      · exact h
      · exact htrans a b y h (hb y hy)
    · have hba : le b a = true := (htot a b).resolve_left (by simpa using h)
      simp only [insStable, h, Bool.false_eq_true, if_false]
      refine List.pairwise_cons.2 ⟨?_, ih ht⟩
      intro y hy
      rcases List.mem_cons.1 ((insStable_perm le a t).mem_iff.1 hy) with rfl | hy2
      · exact hba
      · exact hb y hy2

theorem pairwise_sortStable {α : Type} (le : α → α → Bool)
    (htot : ∀ x y, le x y = true ∨ le y x = true)
    (htrans : ∀ x y z, le x y = true → le y z = true → le x z = true)
    (l : List α) :
    (sortStable le l).Pairwise (fun x y => le x y = true) := by
  induction l with
  | nil => simp [sortStable]
  | cons a t ih => exact pairwise_insStable le htot htrans a (sortStable le t) ih

/-- On a `le`-pairwise list, `takeWhile p` agrees with `filter p` whenever `p`
is antitone along `le` (once false, false forever).  Used to show that the
replay simulator's incremental event consumption partitions the sorted event
stream exactly like a filter by timestamp. -/
theorem takeWhile_eq_filter_of_pairwise {α : Type} (le : α → α → Bool)
    (p : α → Bool) (hp : ∀ x y, le x y = true → p x = false → p y = false)
    (l : List α) (hl : l.Pairwise (fun x y => le x y = true)) :
    l.takeWhile p = l.filter p := by
  induction l with
  | nil => rfl
  | cons a t ih =>
    rcases List.pairwise_cons.1 hl with ⟨ha, ht⟩
    by_cases h : p a
    · rw [List.takeWhile_cons_of_pos h, List.filter_cons_of_pos h, ih ht]
    · have h' : p a = false := by simpa using h
      have hnil : t.filter p = [] := by
        apply List.filter_eq_nil_iff.2
        intro y hy
        simp [hp a y (ha y hy) h']
      simp [List.takeWhile_cons, List.filter_cons, h', hnil]

theorem dropWhile_sublist_of_cons {α : Type} (p : α → Bool) (l : List α) :
    l.dropWhile p = l.drop (l.takeWhile p).length := by
  induction l with
  | nil => rfl
  | cons a t ih =>
    by_cases h : p a
    · simp [List.dropWhile_cons, List.takeWhile_cons, h, ih]
    · simp [List.dropWhile_cons, List.takeWhile_cons, h]

/-! ### The clamp recurrence and the two threshold cost kernels.

`thrPen` is the per-bucket empty/full depth penalty appearing verbatim in both
`midnight_optimizer._station_cost` and `trucks/day_planner._cost_from_bucket`
(the two sources spell the positivity test differently but identically:
`empty_level - x > 0` vs `x < empty_level`). -/

/-- Threshold depth penalty at occupancy `x`:
`w_empty * max(0, empty_level − x) + w_full * max(0, x − full_level)`. -/
def thrPen (eL fL wE wF : ℚ) (x : ℤ) : ℚ :=
  (if eL - (x : ℚ) > 0 then wE * (eL - (x : ℚ)) else 0)
    + (if (x : ℚ) - fL > 0 then wF * ((x : ℚ) - fL) else 0)

/-- The clamp written with the source's two-branch `if` (`if v < 0: 0 elif
v > cap: cap else v`); used for `bikes_t` in `_station_cost` and for the step
update in `_simulate_series` / `_cost_from_bucket`. -/
def clampVal (cap v : ℤ) : ℤ :=
  if v < 0 then 0 else if v > cap then cap else v

/-- One step of the occupancy recurrence with capacity clamping:
`x' = clamp(x + d, 0, cap)`. -/
def stepClamp (cap x d : ℤ) : ℤ := clampVal cap (x + d)

/-- The clamp applied to a single value, as in `int(max(0, min(cap, x0)))`. -/
def clamp0 (cap x : ℤ) : ℤ := max 0 (min cap x)

/-- Loop of `midnight_optimizer._station_cost`:  walks the per-bucket deltas
keeping a running *unclamped* cumulative sum `cum`, and scores the clamped
value `bikes_t = clamp(x0 + cum, 0, cap)` of each bucket.  Note the clamp does
not feed back into `cum` — this is the source's behavior, not a
simplification. -/
def stationCostLoop (x0 cap : ℤ) (eL fL wE wF : ℚ) : ℤ → List ℤ → ℚ
  | _, [] => 0
  | cum, d :: ds =>
    thrPen eL fL wE wF (clampVal cap (x0 + (cum + d)))
      + stationCostLoop x0 cap eL fL wE wF (cum + d) ds

/-- `midnight_optimizer._station_cost`. -/
def stationCost (x0 cap : ℤ) (delta : List ℤ) (emptyThr fullThr wE wF : ℚ) : ℚ :=
  if cap ≤ 0 then 0
  else stationCostLoop x0 cap (emptyThr * (cap : ℚ)) (fullThr * (cap : ℚ)) wE wF 0 delta

/-- The occupancy values (`bikes_t`) that the `_station_cost` loop evaluates,
in bucket order; read off the same loop. -/
def stationCostTrajLoop (x0 cap : ℤ) : ℤ → List ℤ → List ℤ
  | _, [] => []
  | cum, d :: ds =>
    clampVal cap (x0 + (cum + d)) :: stationCostTrajLoop x0 cap (cum + d) ds

/-- Trajectory scored by `_station_cost` for one station. -/
def stationCostTraj (x0 cap : ℤ) (delta : List ℤ) : List ℤ :=
  stationCostTrajLoop x0 cap 0 delta

/-- Loop of `trucks/day_planner._cost_from_bucket`: scores the occupancy at
the *start* of each bucket and then advances it with the clamped step
recurrence. -/
def costFromBucketLoop (cap : ℤ) (eL fL wE wF : ℚ) : ℤ → List ℤ → ℚ
  | _, [] => 0
  | x, d :: ds =>
    thrPen eL fL wE wF x + costFromBucketLoop cap eL fL wE wF (stepClamp cap x d) ds

/-- `trucks/day_planner._cost_from_bucket` (threshold cost kernel of the day
planner). -/
def costFromBucket (startB : ℕ) (xStart cap : ℤ) (delta : List ℤ)
    (emptyThr fullThr wE wF : ℚ) : ℚ :=
  if cap ≤ 0 then 0
  else costFromBucketLoop cap (emptyThr * (cap : ℚ)) (fullThr * (cap : ℚ)) wE wF
    (clamp0 cap xStart) (delta.drop startB)

/-- `_simulate_series` (`trucks/day_planner.py` and
`cluster/truck_clustered.py`, identical): bikes at the start of each bucket
under the clamped recurrence. -/
def simulateSeriesLoop (cap : ℤ) : ℤ → List ℤ → List ℤ
  | _, [] => []
  | x, d :: ds => x :: simulateSeriesLoop cap (stepClamp cap x d) ds

/-- `_simulate_series`. -/
def simulateSeries (x0 cap : ℤ) (delta : List ℤ) : List ℤ :=
  if cap ≤ 0 then delta.map (fun _ => 0)
  else simulateSeriesLoop cap (clamp0 cap x0) delta

/-! ### Relating the two kernels (claim C2).

The unclamped trajectory points `x0, x0+d0, x0+d0+d1, …` (length `B+1`). -/

/-- Unclamped cumulative trajectory: `B+1` points starting at `x0`. -/
def trajPoints (x0 : ℤ) : List ℤ → List ℤ
  | [] => [x0]
  | d :: ds => x0 :: trajPoints (x0 + d) ds

/-- Sum of the threshold penalty over a list of occupancies. -/
def penSum (eL fL wE wF : ℚ) (l : List ℤ) : ℚ :=
  (l.map (thrPen eL fL wE wF)).sum

theorem trajPoints_cons (x0 d : ℤ) (ds : List ℤ) :
    trajPoints x0 (d :: ds) = x0 :: trajPoints (x0 + d) ds := rfl

theorem trajPoints_ne_nil (x0 : ℤ) (ds : List ℤ) : trajPoints x0 ds ≠ [] := by
  cases ds <;> simp [trajPoints]

theorem trajPoints_head (x0 : ℤ) (ds : List ℤ) :
    (trajPoints x0 ds).head? = some x0 := by
  cases ds <;> simp [trajPoints]

theorem trajPoints_getLast (x0 : ℤ) (ds : List ℤ) :
    (trajPoints x0 ds).getLast? = some (x0 + ds.sum) := by
  induction ds generalizing x0 with
  | nil => simp [trajPoints]
  | cons d t ih =>
    rw [trajPoints_cons, List.getLast?_cons, ih (x0 + d)]
    simp [List.sum_cons]
    ring_nf

theorem penSum_cons (eL fL wE wF : ℚ) (a : ℤ) (l : List ℤ) :
    penSum eL fL wE wF (a :: l) = thrPen eL fL wE wF a + penSum eL fL wE wF l := by
  simp [penSum]

theorem clampVal_of_mem_range (cap v : ℤ) (h0 : 0 ≤ v) (hc : v ≤ cap) :
    clampVal cap v = v := by
  simp only [clampVal]
  rw [if_neg (by omega), if_neg (by omega)]

theorem penSum_tail (eL fL wE wF : ℚ) (a : ℤ) (l : List ℤ) (h : l.head? = some a) :
    thrPen eL fL wE wF a + penSum eL fL wE wF l.tail = penSum eL fL wE wF l := by
  cases l with
  | nil => simp at h
  | cons b t =>
    simp only [List.head?_cons, Option.some.injEq] at h
    subst h
    simp [penSum]

theorem stationCostLoop_eq_penSum (cap : ℤ) (eL fL wE wF : ℚ) (ds : List ℤ)
    (x0 cum : ℤ)
    (hin : ∀ p ∈ trajPoints (x0 + cum) ds, 0 ≤ p ∧ p ≤ cap) :
    stationCostLoop x0 cap eL fL wE wF cum ds
      = penSum eL fL wE wF (trajPoints (x0 + cum) ds).tail := by
  induction ds generalizing cum with
  | nil => simp [stationCostLoop, trajPoints, penSum]
  | cons d t ih =>
    have hassoc : x0 + cum + d = x0 + (cum + d) := by ring
    have hmem : (x0 + (cum + d)) ∈ trajPoints (x0 + cum) (d :: t) := by
      rw [trajPoints_cons]
      refine List.mem_cons_of_mem _ ?_
      rw [hassoc] at *
      cases t <;> simp [trajPoints]
    obtain ⟨hge, hle⟩ := hin _ hmem
    have hin' : ∀ p ∈ trajPoints (x0 + (cum + d)) t, 0 ≤ p ∧ p ≤ cap := by
      intro p hp
      apply hin
      rw [trajPoints_cons, hassoc]
      exact List.mem_cons_of_mem _ hp
    have hrec : stationCostLoop x0 cap eL fL wE wF cum (d :: t)
        = thrPen eL fL wE wF (clampVal cap (x0 + (cum + d)))
          + stationCostLoop x0 cap eL fL wE wF (cum + d) t := rfl
    rw [hrec, clampVal_of_mem_range cap _ hge hle, ih (cum + d) hin',
      trajPoints_cons, hassoc]
    simp only [List.tail_cons]
    exact penSum_tail eL fL wE wF _ _ (trajPoints_head _ t)

theorem costFromBucketLoop_eq_penSum (cap : ℤ) (eL fL wE wF : ℚ) (ds : List ℤ)
    (x : ℤ)
    (hin : ∀ p ∈ trajPoints x ds, 0 ≤ p ∧ p ≤ cap) :
    costFromBucketLoop cap eL fL wE wF x ds
      = penSum eL fL wE wF (trajPoints x ds).dropLast := by
  induction ds generalizing x with
  | nil => simp [costFromBucketLoop, trajPoints, penSum]
  | cons d t ih =>
    have hmem : (x + d) ∈ trajPoints x (d :: t) := by
      rw [trajPoints_cons]
      exact List.mem_cons_of_mem _ (by cases t <;> simp [trajPoints])
    obtain ⟨hge, hle⟩ := hin _ hmem
    have hstep : stepClamp cap x d = x + d := by
      simp only [stepClamp]
      exact clampVal_of_mem_range cap _ hge hle
    have hin' : ∀ p ∈ trajPoints (x + d) t, 0 ≤ p ∧ p ≤ cap := by
      intro p hp
      apply hin
      rw [trajPoints_cons]
      exact List.mem_cons_of_mem _ hp
    have hrec : costFromBucketLoop cap eL fL wE wF x (d :: t)
        = thrPen eL fL wE wF x
          + costFromBucketLoop cap eL fL wE wF (stepClamp cap x d) t := rfl
    rw [hrec, hstep, ih (x + d) hin', trajPoints_cons,
      List.dropLast_cons_of_ne_nil (trajPoints_ne_nil (x + d) t)]
    simp [penSum_cons]

theorem penSum_dropLast (eL fL wE wF : ℚ) (z : ℤ) (l : List ℤ)
    (h : l.getLast? = some z) :
    penSum eL fL wE wF l.dropLast + thrPen eL fL wE wF z
      = penSum eL fL wE wF l := by
  induction l generalizing z with
  | nil => simp at h
  | cons a t ih =>
    cases t with
    | nil =>
      simp only [List.getLast?_singleton, Option.some.injEq] at h
      subst h
      simp [penSum]
    | cons b u =>
      rw [List.getLast?_cons] at h
      have hbu : (b :: u).getLast? = some z := by
        simpa [List.getLast?_cons] using h
      rw [List.dropLast_cons_of_ne_nil (by simp : (b :: u) ≠ [])]
      have hih := ih z hbu
      simp only [penSum, List.map_cons, List.sum_cons] at *
      rw [add_assoc]
      rw [show (List.map (thrPen eL fL wE wF) (b :: u).dropLast).sum
            + thrPen eL fL wE wF z
            = thrPen eL fL wE wF b + (List.map (thrPen eL fL wE wF) u).sum from hih]

/-- C2 fails on the code: with `x0 = 1`, `cap = 10`, `delta = [-1]` and the
default thresholds/weights, the allocator kernel `_station_cost` scores the
end-of-bucket occupancy `clamp(1-1) = 0` (cost `1`), while the day planner's
`_cost_from_bucket` from bucket 0 scores the start-of-bucket occupancy `1`
(cost `0`).  The two kernels are therefore not one shared kernel. -/
theorem c2_counterexample :
    stationCost 1 10 [-1] (1/10) (9/10) 1 1
      ≠ costFromBucket 0 1 10 [-1] (1/10) (9/10) 1 1 := by
  decide

/-- C2 (amended): the two kernels score the same clamped trajectory but offset
by one bucket — `_station_cost` scores end-of-bucket occupancies, and
`_cost_from_bucket` start-of-bucket occupancies — and `_station_cost` does not
compound its clamp.  Whenever the unclamped trajectory stays inside
`[0, cap]` (so neither clamp fires), the two sums agree up to the two boundary
buckets: `_station_cost + pen(x[0]) = _cost_from_bucket(start_b=0) +
pen(x[B])`. -/
theorem c2_kernels_agree_shifted (x0 cap : ℤ) (delta : List ℤ)
    (eThr fThr wE wF : ℚ) (hcap : 0 < cap)
    (hin : ∀ p ∈ trajPoints x0 delta, 0 ≤ p ∧ p ≤ cap) :
    stationCost x0 cap delta eThr fThr wE wF
        + thrPen (eThr * (cap : ℚ)) (fThr * (cap : ℚ)) wE wF x0
      = costFromBucket 0 x0 cap delta eThr fThr wE wF
        + thrPen (eThr * (cap : ℚ)) (fThr * (cap : ℚ)) wE wF (x0 + delta.sum) := by
  have hx0mem : x0 ∈ trajPoints x0 delta := by
    cases delta <;> simp [trajPoints]
  obtain ⟨hx0ge, hx0le⟩ := hin x0 hx0mem
  have hclamp0 : clamp0 cap x0 = x0 := by
    simp only [clamp0]
    omega
  have hin0 : ∀ p ∈ trajPoints (x0 + 0) delta, 0 ≤ p ∧ p ≤ cap := by
    simpa using hin
  rw [stationCost, costFromBucket, if_neg (by omega), if_neg (by omega),
    hclamp0, List.drop_zero,
    stationCostLoop_eq_penSum cap _ _ _ _ _ _ _ hin0,
    costFromBucketLoop_eq_penSum cap _ _ _ _ _ _ hin]
  rw [show x0 + 0 = x0 by ring]
  rw [add_comm (penSum _ _ _ _ (trajPoints x0 delta).tail) _,
    penSum_tail _ _ _ _ x0 _ (trajPoints_head x0 delta),
    penSum_dropLast _ _ _ _ (x0 + delta.sum) _ (trajPoints_getLast x0 delta)]

/-- Witness for `c2_kernels_agree_shifted` at `x0 = 5`, `cap = 10`,
`delta = [1, -2]`, default thresholds and unit weights. -/
theorem c2_witness :
    (0 : ℤ) < 10 ∧ (∀ p ∈ trajPoints 5 [1, -2], 0 ≤ p ∧ p ≤ 10)
      ∧ stationCost 5 10 [1, -2] (1/10) (9/10) 1 1
          + thrPen ((1/10) * (10 : ℚ)) ((9/10) * (10 : ℚ)) 1 1 5
        = costFromBucket 0 5 10 [1, -2] (1/10) (9/10) 1 1
          + thrPen ((1/10) * (10 : ℚ)) ((9/10) * (10 : ℚ)) 1 1 (5 + [1, -2].sum) :=
  ⟨by decide, by decide,
    c2_kernels_agree_shifted 5 10 [1, -2] (1/10) (9/10) 1 1 (by decide) (by decide)⟩

/-! ### Trip bucketizer.

A `TripRow` is a trip record after the boundary CSV/timestamp parse (rows
whose timestamps fail to parse are dropped before the core sees them, per the
source's `except: continue`).  Timestamps are minutes relative to the local
midnight of the modeled day; the day window is `[0, 1440)`.  The source's
empty-station-id check (`if not s0 or not s1`) precedes its capacity-map
membership check and has the same effect as it (skip the row), so ids are
modeled as already non-empty. -/

structure TripRow where
  startMin : ℤ
  endMin : ℤ
  startSid : ℕ
  endSid : ℕ
deriving DecidableEq

/-- `bucket_minutes` validity (`bucketize_trips` / `build_bucket_flows` /
`build_station_state_by_hour` raise `ValueError` otherwise). -/
def bucketMinutesValid (bm : ℕ) : Prop := 0 < bm ∧ 1440 % bm = 0

instance : DecidablePred bucketMinutesValid := fun bm =>
  inferInstanceAs (Decidable (0 < bm ∧ 1440 % bm = 0))

/-- Add `v` to slot `i` of a per-bucket array (`arr[i] += v`). -/
def bumpAt (l : List ℤ) (i : ℕ) (v : ℤ) : List ℤ := l.set i (l.getD i 0 + v)

/-- `min(bucket_count - 1, max(0, m // bucket_minutes))`, the bucket index
computation of the source (`//` is Python floor division, `Int.fdiv`). -/
def bucketIndex (bm bc : ℕ) (m : ℤ) : ℕ :=
  (min ((bc : ℤ) - 1) (max 0 (m.fdiv (bm : ℤ)))).toNat

/-- Result of `bucketize_trips` (`trucks/day_planner.py` and
`cluster/truck_clustered.py`, identical code). -/
structure BucketedTrips where
  delta : ℕ → List ℤ
  pickups : ℕ → List ℤ
  dropoffs : ℕ → List ℤ
  touch : ℕ → ℤ
  bucketMinutes : ℕ
  bucketCount : ℕ

/-- One row of the `bucketize_trips` loop. -/
def bucketizeStep (keys : List ℕ) (bm bc : ℕ) (st : BucketedTrips)
    (row : TripRow) : BucketedTrips :=
  if ¬ (0 ≤ row.startMin ∧ row.startMin < 1440) then st
  else if row.startSid = row.endSid then st
  else if ¬ (row.startSid ∈ keys ∧ row.endSid ∈ keys) then st
  else
    let bDep := bucketIndex bm bc row.startMin
    let st1 : BucketedTrips :=
      { st with
        delta := fupd st.delta row.startSid (bumpAt (st.delta row.startSid) bDep (-1))
        pickups := fupd st.pickups row.startSid (bumpAt (st.pickups row.startSid) bDep 1)
        touch := fupd st.touch row.startSid (st.touch row.startSid + 1) }
    if 0 ≤ row.endMin ∧ row.endMin < 1440 then
      let bArr := bucketIndex bm bc row.endMin
      { st1 with
        delta := fupd st1.delta row.endSid (bumpAt (st1.delta row.endSid) bArr 1)
        dropoffs := fupd st1.dropoffs row.endSid (bumpAt (st1.dropoffs row.endSid) bArr 1)
        touch := fupd st1.touch row.endSid (st1.touch row.endSid + 1) }
    else st1

/-- `bucketize_trips` over already-parsed rows: every per-station array starts
as `[0] * bucket_count` and the rows are folded in file order.  (For station
ids outside the capacity map the initial arrays are never read nor written.) -/
def bucketizeTrips (keys : List ℕ) (bm : ℕ) (rows : List TripRow) : BucketedTrips :=
  let bc := 1440 / bm
  rows.foldl (bucketizeStep keys bm bc)
    { delta := fun _ => List.replicate bc 0
      pickups := fun _ => List.replicate bc 0
      dropoffs := fun _ => List.replicate bc 0
      touch := fun _ => 0
      bucketMinutes := bm
      bucketCount := bc }

/-- One row of the `build_bucket_flows` loop (`midnight_optimizer.py`); the
delta updates are those of `bucketize_trips`, without the pickup/dropoff
tallies. -/
def buildBucketFlowsStep (keys : List ℕ) (bm bc : ℕ) (dl : ℕ → List ℤ)
    (row : TripRow) : ℕ → List ℤ :=
  if ¬ (0 ≤ row.startMin ∧ row.startMin < 1440) then dl
  else if row.startSid = row.endSid then dl
  else if ¬ (row.startSid ∈ keys ∧ row.endSid ∈ keys) then dl
  else
    let bDep := bucketIndex bm bc row.startMin
    let dl1 := fupd dl row.startSid (bumpAt (dl row.startSid) bDep (-1))
    if 0 ≤ row.endMin ∧ row.endMin < 1440 then
      let bArr := bucketIndex bm bc row.endMin
      fupd dl1 row.endSid (bumpAt (dl1 row.endSid) bArr 1)
    else dl1

/-- `build_bucket_flows` (`midnight_optimizer.py`): per-station per-bucket
net deltas (`arrivals - departures`). -/
def buildBucketFlows (keys : List ℕ) (bm : ℕ) (rows : List TripRow) : ℕ → List ℤ :=
  rows.foldl (buildBucketFlowsStep keys bm (1440 / bm)) (fun _ => List.replicate (1440 / bm) 0)

/-- C4 fails on the code: a trip that starts before midnight (start minute
`-10`) and ends inside the day window (end minute `5`, distinct stations, both
in the capacity map) contributes no dropoff at all, because `bucketize_trips`
skips the whole record when the start timestamp is outside the day window.
The claim's direction "end in window ⇒ dropoff recorded" is violated. -/
theorem c4_counterexample :
    ((0:ℤ) ≤ 5 ∧ (5:ℤ) < 1440)
      ∧ (bucketizeTrips [1, 2] 60 [⟨-10, 5, 1, 2⟩]).dropoffs 2
          = List.replicate 24 0 := by
  constructor
  · decide
  · decide

/-- C4 (amended): for a trip record with parseable timestamps, distinct start
and end stations both present in the capacity map, the trip contributes a
dropoff to its end station at its end bucket if and only if *both* its start
and its end timestamps lie in the day window `[midnight, next midnight)`; a
trip whose start timestamp falls outside the window is skipped entirely. -/
theorem c4_dropoff_iff_both_in_window (keys : List ℕ) (bm : ℕ) (row : TripRow)
    (hne : row.startSid ≠ row.endSid)
    (hs : row.startSid ∈ keys) (he : row.endSid ∈ keys) :
    (bucketizeTrips keys bm [row]).dropoffs row.endSid
      = if 0 ≤ row.startMin ∧ row.startMin < 1440
            ∧ 0 ≤ row.endMin ∧ row.endMin < 1440
        then bumpAt (List.replicate (1440 / bm) 0)
              (bucketIndex bm (1440 / bm) row.endMin) 1
        else List.replicate (1440 / bm) 0 := by
  by_cases hstart : 0 ≤ row.startMin ∧ row.startMin < 1440
  · by_cases hend : 0 ≤ row.endMin ∧ row.endMin < 1440
    · simp [bucketizeTrips, bucketizeStep, hstart, hend, hne, hs, he, fupd,
        hstart.1, hstart.2, hend.1, hend.2]
    · have hcond : ¬ (0 ≤ row.startMin ∧ row.startMin < 1440
          ∧ 0 ≤ row.endMin ∧ row.endMin < 1440) := by tauto
      simp [bucketizeTrips, bucketizeStep, hstart, hend, hne, hs, he, fupd,
        hcond, hstart.1, hstart.2]
  · have hcond : ¬ (0 ≤ row.startMin ∧ row.startMin < 1440
        ∧ 0 ≤ row.endMin ∧ row.endMin < 1440) := by tauto
    simp [bucketizeTrips, bucketizeStep, hstart, hcond]

/-- Witness for `c4_dropoff_iff_both_in_window`: a fully in-window trip from
station 1 to station 2, `bucket_minutes = 15`. -/
theorem c4_witness :
    ((1:ℕ) ≠ 2 ∧ (1:ℕ) ∈ [1, 2] ∧ (2:ℕ) ∈ [1, 2])
      ∧ (bucketizeTrips [1, 2] 15 [⟨30, 40, 1, 2⟩]).dropoffs 2
          = if (0:ℤ) ≤ 30 ∧ (30:ℤ) < 1440 ∧ (0:ℤ) ≤ 40 ∧ (40:ℤ) < 1440
            then bumpAt (List.replicate (1440 / 15) 0)
                  (bucketIndex 15 (1440 / 15) 40) 1
            else List.replicate (1440 / 15) 0 :=
  ⟨by decide,
    c4_dropoff_iff_both_in_window [1, 2] 15 ⟨30, 40, 1, 2⟩ (by decide) (by decide)
      (by decide)⟩

/-! ### Replay day simulator (`baseline/station_state_by_hour.py`,
`build_station_state_by_hour`).

The embedding covers the configuration exercised by the replay scenarios:
`initial_bikes` provided and `trucks_per_day = 0` (the legacy online-dispatch
branch is guarded by `not planned_moves and trucks_per_day > 0` and is dead in
every cited call site).  The CSV output step is boundary I/O; the in-memory
`snapshots` table and the applied-move list are the modeled outputs. -/

/-- A rider event `(timestamp, kind ∈ {start, end}, station_id)`. -/
structure Ev where
  ts : ℤ
  isStart : Bool
  sid : ℕ
deriving DecidableEq

/-- `trucks/types.py` `TruckMove` (the optional `truck_id` / `distance_km`
fields are never set nor read in the planning/replay core and are omitted). -/
structure TruckMove where
  fromStation : ℕ
  toStation : ℕ
  bikes : ℤ
  tMin : Option ℤ := none
deriving DecidableEq

/-- Events contributed by one trip row (the replay's trip loop: same gates as
the bucketizer, then a `start` event, and an `end` event iff the end timestamp
is inside the day window). -/
def eventsOfRow (keys : List ℕ) (row : TripRow) : List Ev :=
  if ¬ (0 ≤ row.startMin ∧ row.startMin < 1440) then []
  else if row.startSid = row.endSid then []
  else if ¬ (row.startSid ∈ keys ∧ row.endSid ∈ keys) then []
  else
    ⟨row.startMin, true, row.startSid⟩
      :: (if 0 ≤ row.endMin ∧ row.endMin < 1440
          then [⟨row.endMin, false, row.endSid⟩] else [])

/-- The replay's event stream: rows in file order, then a stable sort by
timestamp (`events.sort(key=lambda x: x[0])`). -/
def eventsOf (keys : List ℕ) (rows : List TripRow) : List Ev :=
  sortStable (fun a b => decide (a.ts ≤ b.ts))
    (rows.foldl (fun acc r => acc ++ eventsOfRow keys r) [])

/-- Consume one rider event: on `start`, decrement iff positive (else the
rental is silently lost); on `end`, increment iff below capacity (else the
dock rejection is silent).  Stations with `cap ≤ 0` are skipped. -/
def applyEv (caps : ℕ → ℤ) (capKeys : List ℕ) (bikes : ℕ → ℤ) (e : Ev) : ℕ → ℤ :=
  let cap := if e.sid ∈ capKeys then caps e.sid else 0
  if cap ≤ 0 then bikes
  else if e.isStart then
    (if bikes e.sid > 0 then fupd bikes e.sid (bikes e.sid - 1) else bikes)
  else
    (if bikes e.sid < cap then fupd bikes e.sid (bikes e.sid + 1) else bikes)

/-- `remaining_this_hour is not None and remaining_this_hour <= 0` (the
replay's hourly-cap break condition; once true it stays true, so the `break`
is equivalent to skipping the remaining moves of the bucket). -/
def hourCapExhausted : Option ℤ → Bool
  | none => false
  | some r => r ≤ 0

/-- State threaded through the per-bucket planned-move loop. -/
structure MoveFoldState where
  bikes : ℕ → ℤ
  applied : List TruckMove
  appliedInHour : ℕ → ℤ
  remaining : Option ℤ

/-- Apply one planned move inside bucket `tMin` (the body of the replay's
`for mv in moves_here` loop): unknown station ids and non-positive requested
or clamped amounts drop the move silently; otherwise the transfer of
`moved = min(requested, bikes[src], cap[snk] - bikes[snk])` bikes is committed
and an applied record with the clamped amount is emitted. -/
def applyPlannedMove (caps : ℕ → ℤ) (capKeys : List ℕ) (tMin : ℕ)
    (st : MoveFoldState) (mv : TruckMove) : MoveFoldState :=
  if hourCapExhausted st.remaining then st
  else if ¬ (mv.fromStation ∈ capKeys ∧ mv.toStation ∈ capKeys) then st
  else
    let capDst := caps mv.toStation
    let curSrc := st.bikes mv.fromStation
    let curDst := st.bikes mv.toStation
    if mv.bikes ≤ 0 then st
    else
      let moved := min mv.bikes (min curSrc (capDst - curDst))
      if moved ≤ 0 then st
      else
        { bikes := fupd (fupd st.bikes mv.fromStation (curSrc - moved))
            mv.toStation (curDst + moved)
          applied := st.applied
            ++ [⟨mv.fromStation, mv.toStation, moved, some (tMin : ℤ)⟩]
          appliedInHour := fupd st.appliedInHour (tMin / 60)
            (st.appliedInHour (tMin / 60) + 1)
          remaining := st.remaining.map (fun r => r - 1) }

/-- Replay all planned moves scheduled at exactly `tMin` (in plan order),
honoring the optional per-hour cap. -/
def replayMovesAtBucket (caps : ℕ → ℤ) (capKeys : List ℕ) (mph : Option ℤ)
    (tMin : ℕ) (bikes : ℕ → ℤ) (appliedInHour : ℕ → ℤ)
    (applied : List TruckMove) (planned : List TruckMove) : MoveFoldState :=
  let hour := tMin / 60
  let already := appliedInHour hour
  let rem0 : Option ℤ := mph.map (fun c => max 0 (c - already))
  let movesHere := planned.filter (fun m => m.tMin = some (tMin : ℤ))
  movesHere.foldl (applyPlannedMove caps capKeys tMin)
    ⟨bikes, applied, appliedInHour, rem0⟩

/-- State of the bucket loop. -/
structure SimState where
  bikes : ℕ → ℤ
  evs : List Ev
  appliedInHour : ℕ → ℤ
  applied : List TruckMove
  snaps : ℕ → ℕ → ℤ

/-- One bucket of the replay loop: consume the pending events with timestamp
`< t_min + bucket_minutes` (the `while idx` scan stops at the first event at
or past the bucket end, i.e. a `takeWhile`), then — only when the planned list
is non-empty, as `if planned_moves:` tests truthiness — apply the planned
moves of this bucket, then snapshot. -/
def replayBucketStep (caps : ℕ → ℤ) (capKeys : List ℕ) (bm : ℕ)
    (planned : List TruckMove) (mph : Option ℤ)
    (st : SimState) (tMin : ℕ) : SimState :=
  let p : Ev → Bool := fun e => decide (e.ts < (tMin : ℤ) + (bm : ℤ))
  let consumed := st.evs.takeWhile p
  let rest := st.evs.dropWhile p
  let bikes1 := consumed.foldl (applyEv caps capKeys) st.bikes
  if planned = [] then
    { bikes := bikes1, evs := rest, appliedInHour := st.appliedInHour,
      applied := st.applied, snaps := fupd st.snaps tMin bikes1 }
  else
    let r := replayMovesAtBucket caps capKeys mph tMin bikes1
      st.appliedInHour st.applied planned
    { bikes := r.bikes, evs := rest, appliedInHour := r.appliedInHour,
      applied := r.applied, snaps := fupd st.snaps tMin r.bikes }

/-- Midnight initialization from a provided `initial_bikes` dict: clamp each
provided count into `[0, cap]`; stations outside the capacity map hold no
bikes. -/
def initBikes (caps : ℕ → ℤ) (capKeys : List ℕ) (initial : ℕ → ℤ) : ℕ → ℤ :=
  fun sid =>
    if sid ∈ capKeys then
      let b0 := initial sid
      let b1 := if b0 < 0 then 0 else b0
      if b1 > caps sid then caps sid else b1
    else 0

/-- Output of `build_station_state_by_hour`: the snapshot table
(`t_min ↦ station ↦ bikes`) and the applied-move list. -/
structure ReplayResult where
  snaps : ℕ → ℕ → ℤ
  applied : List TruckMove

/-- `build_station_state_by_hour` (replay core): iterate the buckets
`t_min = 0, bm, 2·bm, …, 1440 - bm`. -/
def buildStationStateByHour (caps : ℕ → ℤ) (capKeys : List ℕ)
    (initial : ℕ → ℤ) (rows : List TripRow) (bm : ℕ)
    (planned : List TruckMove) (mph : Option ℤ) : ReplayResult :=
  let evs := eventsOf capKeys rows
  let st0 : SimState :=
    ⟨initBikes caps capKeys initial, evs, fun _ => 0, [], fun _ _ => 0⟩
  let stF := (List.range' 0 (1440 / bm) bm).foldl
    (replayBucketStep caps capKeys bm planned mph) st0
  ⟨stF.snaps, stF.applied⟩

/-- C5 fails on the code (the spec's Scenario 1 is internally inconsistent
with its own event-consumption rule): the end event at minute 40 satisfies
`40 < 45 = (b+1)·bucket_minutes` for the bucket starting at `t = 30`, so the
replay has already credited B's dropoff in the `t = 30` snapshot: B is 6
there, not 5 as claimed. -/
theorem c5_counterexample :
    (buildStationStateByHour (fun _ => 10) [1, 2] (fun _ => 5)
        [⟨30, 40, 1, 2⟩] 15 [] none).snaps 30 2 = 6 := by
  decide

/-- C5 (amended): stations A = 1 (cap 10) and B = 2 (cap 10), one trip A→B
starting at minute 30 with duration 10 minutes, `bucket_minutes = 15`,
`x0 = {A: 5, B: 5}`, no planned moves.  The replay snapshot at `t = 30` is
A = 4, B = 6 (the end event at minute 40 lies in the bucket `[30, 45)`), the
snapshot at `t = 45` is A = 4, B = 6, and the applied-move list is empty. -/
theorem c5_scenario1 :
    (buildStationStateByHour (fun _ => 10) [1, 2] (fun _ => 5)
        [⟨30, 40, 1, 2⟩] 15 [] none).snaps 30 1 = 4
    ∧ (buildStationStateByHour (fun _ => 10) [1, 2] (fun _ => 5)
        [⟨30, 40, 1, 2⟩] 15 [] none).snaps 30 2 = 6
    ∧ (buildStationStateByHour (fun _ => 10) [1, 2] (fun _ => 5)
        [⟨30, 40, 1, 2⟩] 15 [] none).snaps 45 1 = 4
    ∧ (buildStationStateByHour (fun _ => 10) [1, 2] (fun _ => 5)
        [⟨30, 40, 1, 2⟩] 15 [] none).snaps 45 2 = 6
    ∧ (buildStationStateByHour (fun _ => 10) [1, 2] (fun _ => 5)
        [⟨30, 40, 1, 2⟩] 15 [] none).applied = [] := by
  refine ⟨?_, ?_, ?_, ?_, ?_⟩ <;> decide

/-- C7: in the replay simulator (no hourly cap), each planned move at the
current bucket is clamped to `moved = min(requested, bikes[src],
cap[snk] − bikes[snk])`; if either station id is unknown or `moved ≤ 0` the
move is dropped with no state change and no applied record, and otherwise
exactly `moved` bikes are transferred and an applied record carrying the
clamped `moved` is emitted.  In particular (spec Scenario 4), with
A = 1 (cap 5, x0 4), B = 2 (cap 5, x0 5) and a planned move A→B of 3 bikes at
`t = 0`, the applied list is empty and the `t = 0` snapshot is unchanged. -/
theorem c7_replay_move_clamping :
    (∀ (caps : ℕ → ℤ) (capKeys : List ℕ) (tMin : ℕ) (st : MoveFoldState)
        (mv : TruckMove), st.remaining = none →
      ((¬ (mv.fromStation ∈ capKeys ∧ mv.toStation ∈ capKeys)
          ∨ min mv.bikes (min (st.bikes mv.fromStation)
              (caps mv.toStation - st.bikes mv.toStation)) ≤ 0 →
        applyPlannedMove caps capKeys tMin st mv = st)
      ∧ ((mv.fromStation ∈ capKeys ∧ mv.toStation ∈ capKeys) →
          0 < min mv.bikes (min (st.bikes mv.fromStation)
              (caps mv.toStation - st.bikes mv.toStation)) →
          (applyPlannedMove caps capKeys tMin st mv).bikes
              = fupd (fupd st.bikes mv.fromStation
                  (st.bikes mv.fromStation
                    - min mv.bikes (min (st.bikes mv.fromStation)
                        (caps mv.toStation - st.bikes mv.toStation))))
                mv.toStation
                (st.bikes mv.toStation
                  + min mv.bikes (min (st.bikes mv.fromStation)
                      (caps mv.toStation - st.bikes mv.toStation)))
            ∧ (applyPlannedMove caps capKeys tMin st mv).applied
              = st.applied ++ [⟨mv.fromStation, mv.toStation,
                  min mv.bikes (min (st.bikes mv.fromStation)
                    (caps mv.toStation - st.bikes mv.toStation)),
                  some (tMin : ℤ)⟩])))
    ∧ (buildStationStateByHour (fun _ => 5) [1, 2]
        (fun sid => if sid = 1 then 4 else 5) [] 15
        [⟨1, 2, 3, some 0⟩] none).applied = []
    ∧ (buildStationStateByHour (fun _ => 5) [1, 2]
        (fun sid => if sid = 1 then 4 else 5) [] 15
        [⟨1, 2, 3, some 0⟩] none).snaps 0 1 = 4
    ∧ (buildStationStateByHour (fun _ => 5) [1, 2]
        (fun sid => if sid = 1 then 4 else 5) [] 15
        [⟨1, 2, 3, some 0⟩] none).snaps 0 2 = 5 := by
  refine ⟨?_, by decide, by decide, by decide⟩
  intro caps capKeys tMin st mv hrem
  have hcap : hourCapExhausted st.remaining = false := by rw [hrem]; rfl
  constructor
  · intro hdrop
    by_cases hok : mv.fromStation ∈ capKeys ∧ mv.toStation ∈ capKeys
    · have hle : min mv.bikes (min (st.bikes mv.fromStation)
          (caps mv.toStation - st.bikes mv.toStation)) ≤ 0 := by tauto
      simp only [applyPlannedMove, hcap, Bool.false_eq_true, if_false, hok,
        not_true_eq_false]
      by_cases hb : mv.bikes ≤ 0
      · simp [hb]
      · simp only [hb, if_false]
        rw [if_pos hle]
        simp
    · simp [applyPlannedMove, hcap, hok]
  · intro hok hpos
    have hb : ¬ (mv.bikes ≤ 0) := by
      have : min mv.bikes (min (st.bikes mv.fromStation)
          (caps mv.toStation - st.bikes mv.toStation)) ≤ mv.bikes :=
        min_le_left _ _
      omega
    have hm : ¬ (min mv.bikes (min (st.bikes mv.fromStation)
        (caps mv.toStation - st.bikes mv.toStation)) ≤ 0) := by omega
    simp only [applyPlannedMove, hcap, Bool.false_eq_true, if_false, hok,
      not_true_eq_false, hb, hm]
    exact ⟨rfl, rfl⟩

/-- Witness for `c7_replay_move_clamping`: the drop branch of the general rule
at a concrete state (station 2 full), discharging the `remaining = none`
hypothesis and the drop condition by evaluation. -/
theorem c7_witness :
    applyPlannedMove (fun _ => 5) [1, 2] 0
        ⟨fun sid => if sid = 1 then 4 else 5, [], fun _ => 0, none⟩
        ⟨1, 2, 3, some 0⟩
      = ⟨fun sid => if sid = 1 then 4 else 5, [], fun _ => 0, none⟩ :=
  ((c7_replay_move_clamping.1 (fun _ => 5) [1, 2] 0
      ⟨fun sid => if sid = 1 then 4 else 5, [], fun _ => 0, none⟩
      ⟨1, 2, 3, some 0⟩ rfl).1 (by decide))

/-! ### Midnight allocator (`midnight/midnight_optimizer.py`).

`_initialize_bikes_proportional`: proportional base assignment, then the two
remainder-distribution `while` loops (add bikes by largest fractional part,
or remove them from the largest holdings), each of which rescans the station
order from the top when it reaches the end with work left.  Each loop is
modeled as a recursion on a fuel equal to the initial remainder: every
completed pass removes at least one unit when some station can take one, so
that fuel suffices; a run in which Python would loop forever is returned with
its positive leftover remainder intact (`remLeft`). -/

/-- `caps` is the raw capacity dict; `cap' = max(0, cap)` as in the source. -/
def capPos (caps : ℕ → ℤ) (sid : ℕ) : ℤ := max 0 (caps sid)

/-- Total positive capacity over the station list. -/
def totalCapOf (caps : ℕ → ℤ) (sids : List ℕ) : ℤ :=
  (sids.map (capPos caps)).sum

/-- `val = (cap / total_cap) * total_bikes` for one station (a float in the
source, exact here). -/
def propVal (caps : ℕ → ℤ) (totalCap tb : ℤ) (sid : ℕ) : ℚ :=
  ((capPos caps sid : ℚ) / (totalCap : ℚ)) * (tb : ℚ)

/-- `base = int(val)`; `val ≥ 0` in every reachable call, where Python's
truncation agrees with the floor. -/
def propBase (caps : ℕ → ℤ) (totalCap tb : ℤ) (sid : ℕ) : ℤ :=
  Int.floor (propVal caps totalCap tb sid)

/-- `frac = val - base`. -/
def propFrac (caps : ℕ → ℤ) (totalCap tb : ℤ) (sid : ℕ) : ℚ :=
  propVal caps totalCap tb sid - (propBase caps totalCap tb sid : ℚ)

/-- `x[sid] = min(cap, max(0, base))`. -/
def propInitX (caps : ℕ → ℤ) (totalCap tb : ℤ) (sid : ℕ) : ℤ :=
  min (capPos caps sid) (max 0 (propBase caps totalCap tb sid))

/-- Descending lexicographic comparison on `(key, sid)` pairs, as used by
Python's `list.sort(reverse=True)` on tuples (ℚ key version). -/
def pairDescQ (a b : ℚ × ℕ) : Bool :=
  decide (b.1 < a.1 ∨ (b.1 = a.1 ∧ b.2 ≤ a.2))

/-- Descending lexicographic comparison on `(key, sid)` pairs (ℤ key
version, for the donor pass which sorts by current holdings). -/
def pairDescZ (a b : ℤ × ℕ) : Bool :=
  decide (b.1 < a.1 ∨ (b.1 = a.1 ∧ b.2 ≤ a.2))

/-- One pass of the positive-remainder loop: scan the station order, giving
one bike to each station below its capacity, while the remainder lasts. -/
def distPassUp (caps : ℕ → ℤ) : List ℕ → (ℕ → ℤ) → ℤ → ((ℕ → ℤ) × ℤ)
  | [], x, rem => (x, rem)
  | sid :: rest, x, rem =>
    if rem ≤ 0 then (x, rem)
    else if x sid < caps sid then
      distPassUp caps rest (fupd x sid (x sid + 1)) (rem - 1)
    else distPassUp caps rest x rem

/-- Repeat `distPassUp` until the remainder is gone (fuel bounds the number
of passes; see the section comment). -/
def distLoopUp (caps : ℕ → ℤ) (order : List ℕ) : ℕ → (ℕ → ℤ) → ℤ → ((ℕ → ℤ) × ℤ)
  | 0, x, rem => (x, rem)
  | fuel + 1, x, rem =>
    if rem ≤ 0 then (x, rem)
    else
      let r := distPassUp caps order x rem
      distLoopUp caps order fuel r.1 r.2

/-- One pass of the negative-remainder loop: take one bike from each station
still holding any, while the excess lasts. -/
def distPassDown : List ℕ → (ℕ → ℤ) → ℤ → ((ℕ → ℤ) × ℤ)
  | [], x, rem => (x, rem)
  | sid :: rest, x, rem =>
    if rem ≤ 0 then (x, rem)
    else if x sid > 0 then
      distPassDown rest (fupd x sid (x sid - 1)) (rem - 1)
    else distPassDown rest x rem

/-- Repeat `distPassDown` until the excess is gone. -/
def distLoopDown (order : List ℕ) : ℕ → (ℕ → ℤ) → ℤ → ((ℕ → ℤ) × ℤ)
  | 0, x, rem => (x, rem)
  | fuel + 1, x, rem =>
    if rem ≤ 0 then (x, rem)
    else
      let r := distPassDown order x rem
      distLoopDown order fuel r.1 r.2

/-- `_initialize_bikes_proportional`: the start vector together with the
leftover remainder of whichever distribution loop ran (`0` whenever the
Python loop would have terminated). -/
def initializeBikesProportional (caps : ℕ → ℤ) (sids : List ℕ)
    (totalBikes : ℤ) : (ℕ → ℤ) × ℤ :=
  let totalCap := totalCapOf caps sids
  if totalCap ≤ 0 then (fun _ => 0, 0)
  else
    let tb := max 0 (min totalBikes totalCap)
    let x : ℕ → ℤ := propInitX caps totalCap tb
    let curSum := keySum sids x
    let remaining := tb - curSum
    if 0 < remaining then
      let order := (sortStable pairDescQ
        (sids.map (fun sid => (propFrac caps totalCap tb sid, sid)))).map (fun p => p.2)
      distLoopUp caps order remaining.toNat x remaining
    else if remaining < 0 then
      let order := (sortStable pairDescZ
        (sids.map (fun sid => (x sid, sid)))).map (fun p => p.2)
      distLoopDown order (-remaining).toNat x (-remaining)
    else (x, 0)

/-! ### The greedy 1-bike-swap optimizer (`optimize_midnight_greedy`).

Gains are `WithBot ℚ`: `⊥` models the source's `float("-inf")` (with
`⊥ + q = ⊥` and `⊥ < q`, exactly the IEEE behavior the source relies on). -/

/-- Per-station caches of the greedy loop. -/
structure GreedyState where
  x : ℕ → ℤ
  cost : ℕ → ℚ
  gainPlus : ℕ → WithBot ℚ
  gainMinus : ℕ → WithBot ℚ
  moves : ℕ

/-- `recompute_station`: refresh the cached cost and ±1 gains of one station
from its current count. -/
def recomputeStation (deltas : ℕ → List ℤ) (caps : ℕ → ℤ)
    (eThr fThr wE wF : ℚ) (st : GreedyState) (sid : ℕ) : GreedyState :=
  let cap := caps sid
  let d := deltas sid
  let xi := st.x sid
  let c0 := stationCost xi cap d eThr fThr wE wF
  let gp : WithBot ℚ :=
    if xi < cap then ((c0 - stationCost (xi + 1) cap d eThr fThr wE wF : ℚ) : WithBot ℚ)
    else ⊥
  let gm : WithBot ℚ :=
    if 0 < xi then ((c0 - stationCost (xi - 1) cap d eThr fThr wE wF : ℚ) : WithBot ℚ)
    else ⊥
  { st with
    cost := fupd st.cost sid c0
    gainPlus := fupd st.gainPlus sid gp
    gainMinus := fupd st.gainMinus sid gm }

/-- Tail of `argmaxKey`. -/
def argmaxGo (key : ℕ → WithBot ℚ) : ℕ → List ℕ → ℕ
  | best, [] => best
  | best, s :: rest =>
    if key best < key s then argmaxGo key s rest else argmaxGo key best rest

/-- Python's `max(sids, key=...)`: the first element achieving the maximum
key (later elements replace the incumbent only on a strictly larger key). -/
def argmaxKey (key : ℕ → WithBot ℚ) : List ℕ → ℕ
  | [] => 0
  | a :: rest => argmaxGo key a rest

/-- Total cached cost, `total_cost()`. -/
def costSum (sids : List ℕ) (c : ℕ → ℚ) : ℚ :=
  (sids.map c).sum

/-- The `1e-9` improvement threshold. -/
def epsQ : ℚ := 1 / 1000000000

/-- Donor/receiver selection of one greedy iteration, including the
collision-resolution block (`donor == receiver`): the returned quadruple is
`(receiver, best_plus, donor, best_minus)` exactly as the variables stand
after that block. -/
def selectPair (st : GreedyState) (sids : List ℕ) :
    ℕ × WithBot ℚ × ℕ × WithBot ℚ :=
  let receiver := argmaxKey st.gainPlus sids
  let bestPlus := st.gainPlus receiver
  let donor := argmaxKey st.gainMinus sids
  let bestMinus := st.gainMinus donor
  if donor = receiver then
    let keyP : ℕ → WithBot ℚ := fun s => if s = receiver then ⊥ else st.gainPlus s
    let receiver2 := argmaxKey keyP sids
    let bestPlus2 := keyP receiver2
    let keyM : ℕ → WithBot ℚ := fun s => if s = donor then ⊥ else st.gainMinus s
    let donor2 := argmaxKey keyM sids
    let bestMinus2 := keyM donor2
    if bestPlus2 ≠ ⊥ ∧ bestMinus ≠ ⊥ ∧ bestPlus + bestMinus2 ≤ bestPlus2 + bestMinus
    then (receiver2, bestPlus2, donor, bestMinus)
    else (receiver, bestPlus, donor2, bestMinus2)
  else (receiver, bestPlus, donor, bestMinus)

/-- `moves += 1`. -/
def bumpMoves (st : GreedyState) : GreedyState := { st with moves := st.moves + 1 }

/-- The committed transfer `x[donor] -= 1; x[receiver] += 1` (the second read
happens after the first write, as in the source). -/
def transferX (x : ℕ → ℤ) (donor receiver : ℕ) : ℕ → ℤ :=
  fupd (fupd x donor (x donor - 1)) receiver ((fupd x donor (x donor - 1)) receiver + 1)

/-- One iteration of the greedy move loop: `none` models the three `break`
conditions, `some` the committed 1-bike transfer followed by the two cache
refreshes and the move count bump. -/
def greedyStep (deltas : ℕ → List ℤ) (caps : ℕ → ℤ) (eThr fThr wE wF : ℚ)
    (sids : List ℕ) (st : GreedyState) : Option GreedyState :=
  let sel := selectPair st sids
  let receiver := sel.1
  let bestPlus := sel.2.1
  let donor := sel.2.2.1
  let bestMinus := sel.2.2.2
  let improvement := bestPlus + bestMinus
  if ¬ ((epsQ : WithBot ℚ) < improvement) then none
  else if st.x donor ≤ 0 then none
  else if caps receiver ≤ st.x receiver then none
  else
    let st1 : GreedyState := { st with x := transferX st.x donor receiver }
    let st2 := recomputeStation deltas caps eThr fThr wE wF st1 donor
    let st3 := recomputeStation deltas caps eThr fThr wE wF st2 receiver
    some (bumpMoves st3)

/-- The greedy move loop (`for _ in range(max_moves)`, stopping at the first
`break`). -/
def greedyLoop (deltas : ℕ → List ℤ) (caps : ℕ → ℤ) (eThr fThr wE wF : ℚ)
    (sids : List ℕ) : ℕ → GreedyState → GreedyState
  | 0, st => st
  | fuel + 1, st =>
    match greedyStep deltas caps eThr fThr wE wF sids st with
    | none => st
    | some st2 => greedyLoop deltas caps eThr fThr wE wF sids fuel st2

/-- `MidnightOptimizeResult` (the fields the claims speak about; the shared
station-id list is carried so that the result's per-station dict can be
summed). -/
structure MidnightResult where
  bikes : ℕ → ℤ
  sids : List ℕ
  totalBikes : ℤ
  initialCost : ℚ
  finalCost : ℚ
  moves : ℕ

/-- The zero result returned by the two early-exit branches of
`optimize_midnight_greedy`. -/
def emptyMidnightResult : MidnightResult :=
  { bikes := fun _ => 0, sids := [], totalBikes := 0,
    initialCost := 0, finalCost := 0, moves := 0 }

/-- Main branch of `optimize_midnight_greedy` (station list already
intersected and non-empty). -/
def optimizeMain (deltas : ℕ → List ℤ) (caps : ℕ → ℤ) (eThr fThr wE wF : ℚ)
    (maxMoves : Option ℕ) (sids : List ℕ) (totalBikes : ℤ) : MidnightResult :=
  let totalCap := totalCapOf caps sids
  let tb := max 0 (min totalBikes totalCap)
  let x0 := (initializeBikesProportional caps sids tb).1
  let stInit : GreedyState := ⟨x0, fun _ => 0, fun _ => ⊥, fun _ => ⊥, 0⟩
  let st0 := sids.foldl (recomputeStation deltas caps eThr fThr wE wF) stInit
  let initialTotal := costSum sids st0.cost
  let fuel := match maxMoves with
    | some m => m
    | none => max 1000 tb.toNat
  let stF := greedyLoop deltas caps eThr fThr wE wF sids fuel st0
  { bikes := stF.x, sids := sids, totalBikes := tb,
    initialCost := initialTotal, finalCost := costSum sids stF.cost,
    moves := stF.moves }

/-- `optimize_midnight_greedy`. -/
def optimizeMidnightGreedy (deltas : ℕ → List ℤ) (deltaKeys : List ℕ)
    (caps : ℕ → ℤ) (capKeys : List ℕ) (totalBikes : ℤ)
    (eThr fThr wE wF : ℚ) (maxMoves : Option ℕ) : MidnightResult :=
  if deltaKeys = [] then emptyMidnightResult
  else
    let sids := capKeys.filter (fun sid => decide (sid ∈ deltaKeys))
    if sids = [] then emptyMidnightResult
    else optimizeMain deltas caps eThr fThr wE wF maxMoves sids totalBikes

/-! ### Allocator proofs: cache correctness and cost accounting. -/

theorem costSum_fupd_of_not_mem (keys : List ℕ) (m : ℕ → ℚ) (k : ℕ) (v : ℚ)
    (h : k ∉ keys) : costSum keys (fupd m k v) = costSum keys m := by
  induction keys with
  | nil => rfl
  | cons a l ih =>
    simp only [costSum, List.map_cons, List.sum_cons] at *
    have ha : a ≠ k := fun hak => h (hak ▸ List.mem_cons_self a l)
    rw [fupd_other m k v a ha, ih (fun hk => h (List.mem_cons_of_mem a hk))]

theorem costSum_fupd (keys : List ℕ) (m : ℕ → ℚ) (k : ℕ) (v : ℚ)
    (hmem : k ∈ keys) (hnd : keys.Nodup) :
    costSum keys (fupd m k v) = costSum keys m - m k + v := by
  induction keys with
  | nil => cases hmem
  | cons a l ih =>
    rcases List.mem_cons.1 hmem with h | h
    · subst h
      have hk : k ∉ l := (List.nodup_cons.1 hnd).1
      simp only [costSum, List.map_cons, List.sum_cons]
      rw [show fupd m k v k = v from fupd_same m k v,
        show (l.map (fupd m k v)).sum = (l.map m).sum from
          costSum_fupd_of_not_mem l m k v hk]
      ring
    · have hnd' : l.Nodup := (List.nodup_cons.1 hnd).2
      have ha : a ≠ k := fun hak => (List.nodup_cons.1 hnd).1 (hak ▸ h)
      have hih := ih h hnd'
      simp only [costSum, List.map_cons, List.sum_cons] at *
      rw [fupd_other m k v a ha, hih]
      ring

theorem argmaxGo_mem (key : ℕ → WithBot ℚ) (best : ℕ) (l : List ℕ) :
    argmaxGo key best l = best ∨ argmaxGo key best l ∈ l := by
  induction l generalizing best with
  | nil => left; rfl
  | cons s rest ih =>
    simp only [argmaxGo]
    by_cases h : key best < key s
    · simp only [h, if_true]
      rcases ih s with h2 | h2
      · right; rw [h2]; exact List.mem_cons_self s rest
      · right; exact List.mem_cons_of_mem s h2
    · simp only [h, if_false]
      rcases ih best with h2 | h2
      · left; exact h2
      · right; exact List.mem_cons_of_mem s h2

theorem argmaxKey_mem (key : ℕ → WithBot ℚ) (l : List ℕ) (h : l ≠ []) :
    argmaxKey key l ∈ l := by
  cases l with
  | nil => exact absurd rfl h
  | cons a rest =>
    rcases argmaxGo_mem key a rest with h2 | h2
    · rw [show argmaxKey key (a :: rest) = argmaxGo key a rest from rfl, h2]
      exact List.mem_cons_self a rest
    · exact List.mem_cons_of_mem a h2

/-- The cached cost and gains of station `s` agree with its current count
(the invariant `recompute_station` establishes). -/
def cacheAt (deltas : ℕ → List ℤ) (caps : ℕ → ℤ) (eThr fThr wE wF : ℚ)
    (st : GreedyState) (s : ℕ) : Prop :=
  st.cost s = stationCost (st.x s) (caps s) (deltas s) eThr fThr wE wF
  ∧ st.gainPlus s =
      (if st.x s < caps s
        then ((stationCost (st.x s) (caps s) (deltas s) eThr fThr wE wF
          - stationCost (st.x s + 1) (caps s) (deltas s) eThr fThr wE wF : ℚ) : WithBot ℚ)
        else ⊥)
  ∧ st.gainMinus s =
      (if 0 < st.x s
        then ((stationCost (st.x s) (caps s) (deltas s) eThr fThr wE wF
          - stationCost (st.x s - 1) (caps s) (deltas s) eThr fThr wE wF : ℚ) : WithBot ℚ)
        else ⊥)

theorem recompute_x (deltas : ℕ → List ℤ) (caps : ℕ → ℤ) (eThr fThr wE wF : ℚ)
    (st : GreedyState) (sid : ℕ) :
    (recomputeStation deltas caps eThr fThr wE wF st sid).x = st.x := rfl

theorem recompute_cost_other (deltas : ℕ → List ℤ) (caps : ℕ → ℤ)
    (eThr fThr wE wF : ℚ) (st : GreedyState) (sid t : ℕ) (h : t ≠ sid) :
    (recomputeStation deltas caps eThr fThr wE wF st sid).cost t = st.cost t := by
  simp [recomputeStation, fupd_other, h]

theorem recompute_cacheAt_self (deltas : ℕ → List ℤ) (caps : ℕ → ℤ)
    (eThr fThr wE wF : ℚ) (st : GreedyState) (sid : ℕ) :
    cacheAt deltas caps eThr fThr wE wF
      (recomputeStation deltas caps eThr fThr wE wF st sid) sid := by
  refine ⟨?_, ?_, ?_⟩ <;>
    simp [cacheAt, recomputeStation, fupd_same]

theorem recompute_cacheAt_other (deltas : ℕ → List ℤ) (caps : ℕ → ℤ)
    (eThr fThr wE wF : ℚ) (st : GreedyState) (sid t : ℕ) (h : t ≠ sid)
    (hc : cacheAt deltas caps eThr fThr wE wF st t) :
    cacheAt deltas caps eThr fThr wE wF
      (recomputeStation deltas caps eThr fThr wE wF st sid) t := by
  obtain ⟨h1, h2, h3⟩ := hc
  refine ⟨?_, ?_, ?_⟩ <;>
    simp [cacheAt, recomputeStation, fupd_other, h, h1, h2, h3]

theorem foldl_recompute_x (deltas : ℕ → List ℤ) (caps : ℕ → ℤ)
    (eThr fThr wE wF : ℚ) (L : List ℕ) (st : GreedyState) :
    (L.foldl (recomputeStation deltas caps eThr fThr wE wF) st).x = st.x := by
  induction L generalizing st with
  | nil => rfl
  | cons a rest ih =>
    rw [List.foldl_cons, ih, recompute_x]

theorem foldl_recompute_cacheAt_preserved (deltas : ℕ → List ℤ) (caps : ℕ → ℤ)
    (eThr fThr wE wF : ℚ) (L : List ℕ) (st : GreedyState) (a : ℕ) (ha : a ∉ L)
    (hc : cacheAt deltas caps eThr fThr wE wF st a) :
    cacheAt deltas caps eThr fThr wE wF
      (L.foldl (recomputeStation deltas caps eThr fThr wE wF) st) a := by
  induction L generalizing st with
  | nil => exact hc
  | cons b rest ih =>
    have hab : a ≠ b := fun h => ha (h ▸ List.mem_cons_self b rest)
    have ha' : a ∉ rest := fun h => ha (List.mem_cons_of_mem b h)
    rw [List.foldl_cons]
    exact ih _ ha' (recompute_cacheAt_other deltas caps eThr fThr wE wF st b a hab hc)

theorem foldl_recompute_cacheAt (deltas : ℕ → List ℤ) (caps : ℕ → ℤ)
    (eThr fThr wE wF : ℚ) (L : List ℕ) (st : GreedyState) :
    ∀ s ∈ L, cacheAt deltas caps eThr fThr wE wF
      (L.foldl (recomputeStation deltas caps eThr fThr wE wF) st) s := by
  induction L generalizing st with
  | nil => intro s hs; cases hs
  | cons b rest ih =>
    intro s hs
    rw [List.foldl_cons]
    by_cases hsr : s ∈ rest
    · exact ih _ s hsr
    · have hsb : s = b := by
        rcases List.mem_cons.1 hs with h | h
        · exact h
        · exact absurd h hsr
      subst hsb
      exact foldl_recompute_cacheAt_preserved deltas caps eThr fThr wE wF rest _ s hsr
        (recompute_cacheAt_self deltas caps eThr fThr wE wF st s)

theorem epsQ_pos : 0 < epsQ := by norm_num [epsQ]

/-- When one greedy iteration's improvement clears the threshold, the selected
receiver and donor are distinct members of `sids` and the carried gains are
their cached gains. -/
theorem selectPair_spec (st : GreedyState) (sids : List ℕ) (hne : sids ≠ [])
    (himp : (epsQ : WithBot ℚ)
      < (selectPair st sids).2.1 + (selectPair st sids).2.2.2) :
    (selectPair st sids).1 ∈ sids ∧ (selectPair st sids).2.2.1 ∈ sids
    ∧ (selectPair st sids).1 ≠ (selectPair st sids).2.2.1
    ∧ (selectPair st sids).2.1 = st.gainPlus (selectPair st sids).1
    ∧ (selectPair st sids).2.2.2 = st.gainMinus (selectPair st sids).2.2.1 := by
  simp only [selectPair] at himp ⊢
  set receiver := argmaxKey st.gainPlus sids with hrec
  set donor := argmaxKey st.gainMinus sids with hdon
  have hrmem : receiver ∈ sids := by rw [hrec]; exact argmaxKey_mem _ _ hne
  have hdmem : donor ∈ sids := by rw [hdon]; exact argmaxKey_mem _ _ hne
  by_cases hcol : donor = receiver
  · rw [if_pos hcol] at himp ⊢
    set receiver2 := argmaxKey (fun s => if s = receiver then ⊥ else st.gainPlus s)
      sids with hrec2
    set donor2 := argmaxKey (fun s => if s = donor then ⊥ else st.gainMinus s)
      sids with hdon2
    have hr2mem : receiver2 ∈ sids := by rw [hrec2]; exact argmaxKey_mem _ _ hne
    have hd2mem : donor2 ∈ sids := by rw [hdon2]; exact argmaxKey_mem _ _ hne
    by_cases hr2 : receiver2 = receiver
    · rw [hr2, if_pos rfl] at himp ⊢
      have hgf : ¬ ((⊥ : WithBot ℚ) ≠ ⊥ ∧ st.gainMinus donor ≠ ⊥
          ∧ st.gainPlus receiver
              + (if donor2 = donor then ⊥ else st.gainMinus donor2)
            ≤ ⊥ + st.gainMinus donor) := by
        intro hcontra
        exact hcontra.1 rfl
      rw [if_neg hgf] at himp ⊢
      by_cases hd2 : donor2 = donor
      · rw [hd2, if_pos rfl] at himp
        simp at himp
      · rw [if_neg hd2] at himp ⊢
        refine ⟨hrmem, hd2mem, ?_, rfl, rfl⟩
        intro h
        have h2 : receiver = donor2 := h
        apply hd2
        rw [hcol, ← h2]
    · rw [if_neg hr2] at himp ⊢
      by_cases hd2 : donor2 = donor
      · rw [hd2, if_pos rfl] at himp ⊢
        by_cases hguard : st.gainPlus receiver2 ≠ ⊥ ∧ st.gainMinus donor ≠ ⊥
            ∧ st.gainPlus receiver + ⊥ ≤ st.gainPlus receiver2 + st.gainMinus donor
        · rw [if_pos hguard] at himp ⊢
          refine ⟨hr2mem, hdmem, ?_, rfl, rfl⟩
          rw [hcol]
          exact hr2
        · rw [if_neg hguard] at himp ⊢
          simp at himp
      · rw [if_neg hd2] at himp ⊢
        by_cases hguard : st.gainPlus receiver2 ≠ ⊥ ∧ st.gainMinus donor ≠ ⊥
            ∧ st.gainPlus receiver + st.gainMinus donor2
              ≤ st.gainPlus receiver2 + st.gainMinus donor
        · rw [if_pos hguard] at himp ⊢
          refine ⟨hr2mem, hdmem, ?_, rfl, rfl⟩
          rw [hcol]
          exact hr2
        · rw [if_neg hguard] at himp ⊢
          refine ⟨hrmem, hd2mem, ?_, rfl, rfl⟩
          intro h
          have h2 : receiver = donor2 := h
          apply hd2
          rw [hcol, ← h2]
  · rw [if_neg hcol] at himp ⊢
    exact ⟨hrmem, hdmem, fun h => hcol h.symm, rfl, rfl⟩

/-- A committed greedy step: the three break guards passed, and the result is
explicitly the transfer-and-refresh state. -/
theorem greedyStep_eq_some (deltas : ℕ → List ℤ) (caps : ℕ → ℤ)
    (eThr fThr wE wF : ℚ) (sids : List ℕ) (st st' : GreedyState)
    (h : greedyStep deltas caps eThr fThr wE wF sids st = some st') :
    ((epsQ : WithBot ℚ) < (selectPair st sids).2.1 + (selectPair st sids).2.2.2)
    ∧ 0 < st.x (selectPair st sids).2.2.1
    ∧ st.x (selectPair st sids).1 < caps (selectPair st sids).1
    ∧ st' = bumpMoves
      (recomputeStation deltas caps eThr fThr wE wF
        (recomputeStation deltas caps eThr fThr wE wF
          { st with
            x := transferX st.x (selectPair st sids).2.2.1 (selectPair st sids).1 }
          (selectPair st sids).2.2.1)
        (selectPair st sids).1) := by
  simp only [greedyStep] at h
  by_cases h1 : ¬ ((epsQ : WithBot ℚ)
      < (selectPair st sids).2.1 + (selectPair st sids).2.2.2)
  · rw [if_pos h1] at h; cases h
  · rw [if_neg h1] at h
    push_neg at h1
    by_cases h2 : st.x (selectPair st sids).2.2.1 ≤ 0
    · rw [if_pos h2] at h; cases h
    · rw [if_neg h2] at h
      by_cases h3 : caps (selectPair st sids).1 ≤ st.x (selectPair st sids).1
      · rw [if_pos h3] at h; cases h
      · rw [if_neg h3] at h
        exact ⟨h1, by omega, by omega, (Option.some.inj h).symm⟩

/-- A greedy step that stops returns `none`; otherwise `greedyStep_eq_some`
applies.  Every committed transfer is sum-neutral on the bike counts. -/
theorem greedyStep_keySum (deltas : ℕ → List ℤ) (caps : ℕ → ℤ)
    (eThr fThr wE wF : ℚ) (sids : List ℕ) (hnd : sids.Nodup)
    (st st' : GreedyState)
    (h : greedyStep deltas caps eThr fThr wE wF sids st = some st') :
    keySum sids st'.x = keySum sids st.x := by
  obtain ⟨h1, _h2, _h3, hst⟩ := greedyStep_eq_some deltas caps eThr fThr wE wF sids st st' h
  subst hst
  by_cases hsids : sids = []
  · subst hsids; rfl
  · obtain ⟨hrmem, hdmem, hne', _, _⟩ := selectPair_spec st sids hsids h1
    show keySum sids
      (transferX st.x (selectPair st sids).2.2.1 (selectPair st sids).1)
        = keySum sids st.x
    rw [transferX, keySum_fupd sids _ (selectPair st sids).1 _ hrmem hnd,
      keySum_fupd sids _ (selectPair st sids).2.2.1 _ hdmem hnd,
      fupd_other st.x (selectPair st sids).2.2.1 _ (selectPair st sids).1 hne']
    omega

/-- Every greedy 1-bike transfer preserves the total bike count. -/
theorem greedyLoop_keySum (deltas : ℕ → List ℤ) (caps : ℕ → ℤ)
    (eThr fThr wE wF : ℚ) (sids : List ℕ) (hnd : sids.Nodup) :
    ∀ (fuel : ℕ) (st : GreedyState),
      keySum sids (greedyLoop deltas caps eThr fThr wE wF sids fuel st).x
        = keySum sids st.x := by
  intro fuel
  induction fuel with
  | zero => intro st; rfl
  | succ n ih =>
    intro st
    rw [greedyLoop]
    cases hstep : greedyStep deltas caps eThr fThr wE wF sids st with
    | none => rfl
    | some st2 =>
      rw [ih st2, greedyStep_keySum deltas caps eThr fThr wE wF sids hnd st st2 hstep]

theorem transferX_donor (x : ℕ → ℤ) (d r : ℕ) (h : d ≠ r) :
    transferX x d r d = x d - 1 := by
  simp [transferX, fupd, h]

theorem transferX_receiver (x : ℕ → ℤ) (d r : ℕ) (h : r ≠ d) :
    transferX x d r r = x r + 1 := by
  simp [transferX, fupd, h]

theorem transferX_other (x : ℕ → ℤ) (d r s : ℕ) (hd : s ≠ d) (hr : s ≠ r) :
    transferX x d r s = x s := by
  simp [transferX, fupd, hd, hr]

theorem cacheAt_bumpMoves (deltas : ℕ → List ℤ) (caps : ℕ → ℤ)
    (eThr fThr wE wF : ℚ) (st : GreedyState) (s : ℕ)
    (hc : cacheAt deltas caps eThr fThr wE wF st s) :
    cacheAt deltas caps eThr fThr wE wF (bumpMoves st) s := hc

/-- A committed greedy step lowers the cached total cost by the committed
pair's joint gain (which exceeds `1e-9`), and leaves every cache correct. -/
theorem greedyStep_cost (deltas : ℕ → List ℤ) (caps : ℕ → ℤ)
    (eThr fThr wE wF : ℚ) (sids : List ℕ) (hnd : sids.Nodup)
    (st st' : GreedyState)
    (hcache : ∀ s ∈ sids, cacheAt deltas caps eThr fThr wE wF st s)
    (h : greedyStep deltas caps eThr fThr wE wF sids st = some st') :
    costSum sids st'.cost ≤ costSum sids st.cost
      ∧ (∀ s ∈ sids, cacheAt deltas caps eThr fThr wE wF st' s) := by
  obtain ⟨himp, hdpos, hrlt, hst⟩ :=
    greedyStep_eq_some deltas caps eThr fThr wE wF sids st st' h
  by_cases hsids : sids = []
  · subst hsids
    constructor
    · subst hst; rfl
    · intro s hs; cases hs
  · obtain ⟨hrmem, hdmem, hne', hgp, hgm⟩ := selectPair_spec st sids hsids himp
    set r := (selectPair st sids).1 with hrdef
    set d := (selectPair st sids).2.2.1 with hddef
    obtain ⟨hcostr, hgpr, _⟩ := hcache r hrmem
    obtain ⟨hcostd, _, hgmd⟩ := hcache d hdmem
    rw [if_pos hrlt] at hgpr
    rw [if_pos hdpos] at hgmd
    set cR := stationCost (st.x r) (caps r) (deltas r) eThr fThr wE wF with hcR
    set cR1 := stationCost (st.x r + 1) (caps r) (deltas r) eThr fThr wE wF with hcR1
    set cD := stationCost (st.x d) (caps d) (deltas d) eThr fThr wE wF with hcD
    set cD1 := stationCost (st.x d - 1) (caps d) (deltas d) eThr fThr wE wF with hcD1
    have hsum : epsQ < (cR - cR1) + (cD - cD1) := by
      rw [hgp, hgm, hgpr, hgmd] at himp
      have : ((epsQ : ℚ) : WithBot ℚ)
          < (((cR - cR1) + (cD - cD1) : ℚ) : WithBot ℚ) := by
        push_cast at himp ⊢
        convert himp using 2
      exact_mod_cast this
    set st1 : GreedyState := { st with x := transferX st.x d r } with hst1
    set st2 := recomputeStation deltas caps eThr fThr wE wF st1 d with hst2
    set st3 := recomputeStation deltas caps eThr fThr wE wF st2 r with hst3
    have hx1d : st1.x d = st.x d - 1 := transferX_donor st.x d r (fun hh => hne' hh.symm)
    have hx1r : st1.x r = st.x r + 1 := transferX_receiver st.x d r hne'
    have hcost2 : st2.cost = fupd st1.cost d cD1 := by
      rw [hst2]
      show fupd st1.cost d
        (stationCost (st1.x d) (caps d) (deltas d) eThr fThr wE wF) = _
      rw [hx1d]
    have hcost3 : st3.cost = fupd st2.cost r cR1 := by
      rw [hst3]
      show fupd st2.cost r
        (stationCost (st2.x r) (caps r) (deltas r) eThr fThr wE wF) = _
      rw [show st2.x = st1.x from rfl, hx1r]
    have hsum3 : costSum sids st3.cost = costSum sids st.cost - cD - cR + cD1 + cR1 := by
      rw [hcost3, costSum_fupd sids _ r _ hrmem hnd, hcost2]
      rw [fupd_other st1.cost d cD1 r hne']
      rw [costSum_fupd sids _ d _ hdmem hnd]
      have h1 : st1.cost = st.cost := rfl
      rw [h1, ← hcostr, ← hcostd]
      ring
    have hle : costSum sids st3.cost ≤ costSum sids st.cost := by
      rw [hsum3]
      have := epsQ_pos
      linarith
    have hcache3 : ∀ s ∈ sids, cacheAt deltas caps eThr fThr wE wF st3 s := by
      intro s hs
      by_cases hsr : s = r
      · subst hsr
        exact recompute_cacheAt_self deltas caps eThr fThr wE wF st2 r
      · by_cases hsd : s = d
        · subst hsd
          exact recompute_cacheAt_other deltas caps eThr fThr wE wF st2 r d hsr
            (recompute_cacheAt_self deltas caps eThr fThr wE wF st1 d)
        · have hc1 : cacheAt deltas caps eThr fThr wE wF st1 s := by
            obtain ⟨h1, h2, h3⟩ := hcache s hs
            have hx1s : st1.x s = st.x s := transferX_other st.x d r s hsd hsr
            exact ⟨by rw [show st1.cost = st.cost from rfl, hx1s, h1],
              by rw [show st1.gainPlus = st.gainPlus from rfl, hx1s, h2],
              by rw [show st1.gainMinus = st.gainMinus from rfl, hx1s, h3]⟩
          exact recompute_cacheAt_other deltas caps eThr fThr wE wF st2 r s hsr
            (recompute_cacheAt_other deltas caps eThr fThr wE wF st1 d s hsd hc1)
    subst hst
    exact ⟨hle, fun s hs => cacheAt_bumpMoves deltas caps eThr fThr wE wF st3 s
      (hcache3 s hs)⟩

/-- The greedy loop never increases the cached total cost. -/
theorem greedyLoop_cost_le (deltas : ℕ → List ℤ) (caps : ℕ → ℤ)
    (eThr fThr wE wF : ℚ) (sids : List ℕ) (hnd : sids.Nodup) :
    ∀ (fuel : ℕ) (st : GreedyState),
      (∀ s ∈ sids, cacheAt deltas caps eThr fThr wE wF st s) →
      costSum sids (greedyLoop deltas caps eThr fThr wE wF sids fuel st).cost
        ≤ costSum sids st.cost := by
  intro fuel
  induction fuel with
  | zero => intro st _; exact le_refl _
  | succ n ih =>
    intro st hcache
    rw [greedyLoop]
    cases hstep : greedyStep deltas caps eThr fThr wE wF sids st with
    | none => exact le_refl _
    | some st2 =>
      obtain ⟨hle, hcache2⟩ :=
        greedyStep_cost deltas caps eThr fThr wE wF sids hnd st st2 hcache hstep
      exact le_trans (ih st2 hcache2) hle

/-- A committed greedy step keeps every station's count inside `[0, cap]`. -/
theorem greedyStep_bounds (deltas : ℕ → List ℤ) (caps : ℕ → ℤ)
    (eThr fThr wE wF : ℚ) (sids : List ℕ) (st st' : GreedyState)
    (hbd : ∀ s ∈ sids, 0 ≤ st.x s ∧ st.x s ≤ caps s)
    (h : greedyStep deltas caps eThr fThr wE wF sids st = some st') :
    ∀ s ∈ sids, 0 ≤ st'.x s ∧ st'.x s ≤ caps s := by
  obtain ⟨himp, hdpos, hrlt, hst⟩ :=
    greedyStep_eq_some deltas caps eThr fThr wE wF sids st st' h
  by_cases hsids : sids = []
  · subst hsids; intro s hs; cases hs
  · obtain ⟨hrmem, hdmem, hne', _, _⟩ := selectPair_spec st sids hsids himp
    subst hst
    intro s hs
    show 0 ≤ transferX st.x (selectPair st sids).2.2.1 (selectPair st sids).1 s
      ∧ transferX st.x (selectPair st sids).2.2.1 (selectPair st sids).1 s ≤ caps s
    by_cases hsr : s = (selectPair st sids).1
    · subst hsr
      rw [transferX_receiver st.x _ _ hne']
      obtain ⟨hb1, _⟩ := hbd _ hs
      omega
    · by_cases hsd : s = (selectPair st sids).2.2.1
      · subst hsd
        rw [transferX_donor st.x _ _ (fun hh => hne' hh.symm)]
        obtain ⟨_, hb2⟩ := hbd _ hs
        omega
      · rw [transferX_other st.x _ _ s hsd hsr]
        exact hbd s hs

/-- The greedy loop keeps every station's count inside `[0, cap]`. -/
theorem greedyLoop_bounds (deltas : ℕ → List ℤ) (caps : ℕ → ℤ)
    (eThr fThr wE wF : ℚ) (sids : List ℕ) :
    ∀ (fuel : ℕ) (st : GreedyState),
      (∀ s ∈ sids, 0 ≤ st.x s ∧ st.x s ≤ caps s) →
      ∀ s ∈ sids,
        0 ≤ (greedyLoop deltas caps eThr fThr wE wF sids fuel st).x s
        ∧ (greedyLoop deltas caps eThr fThr wE wF sids fuel st).x s ≤ caps s := by
  intro fuel
  induction fuel with
  | zero => intro st hbd; exact hbd
  | succ n ih =>
    intro st hbd
    rw [greedyLoop]
    cases hstep : greedyStep deltas caps eThr fThr wE wF sids st with
    | none => exact hbd
    | some st2 =>
      exact ih st2 (greedyStep_bounds deltas caps eThr fThr wE wF sids st st2 hbd hstep)

theorem keySum_congr (sids : List ℕ) (f g : ℕ → ℤ) (h : ∀ s ∈ sids, f s = g s) :
    keySum sids f = keySum sids g := by
  induction sids with
  | nil => rfl
  | cons a l ih =>
    simp only [keySum, List.map_cons, List.sum_cons] at *
    rw [h a (List.mem_cons_self a l), ih (fun s hs => h s (List.mem_cons_of_mem a hs))]

theorem keySum_cast (sids : List ℕ) (f : ℕ → ℤ) :
    ((keySum sids f : ℤ) : ℚ) = (sids.map (fun s => ((f s : ℤ) : ℚ))).sum := by
  induction sids with
  | nil => simp [keySum]
  | cons a l ih =>
    simp only [keySum, List.map_cons, List.sum_cons] at *
    push_cast
    rw [← ih]
    push_cast
    ring

/-- One upward distribution pass: conservation of `sum + remainder`,
remainder monotonicity and sign, and per-station bounds. -/
theorem distPassUp_spec (caps : ℕ → ℤ) (sids : List ℕ) (hnd : sids.Nodup) :
    ∀ (order : List ℕ), (∀ s ∈ order, s ∈ sids) →
    ∀ (x : ℕ → ℤ) (rem : ℤ),
      keySum sids (distPassUp caps order x rem).1 + (distPassUp caps order x rem).2
        = keySum sids x + rem
      ∧ (0 ≤ rem → 0 ≤ (distPassUp caps order x rem).2)
      ∧ (distPassUp caps order x rem).2 ≤ rem
      ∧ ((∀ s ∈ sids, 0 ≤ x s ∧ x s ≤ capPos caps s) →
          ∀ s ∈ sids, 0 ≤ (distPassUp caps order x rem).1 s
            ∧ (distPassUp caps order x rem).1 s ≤ capPos caps s) := by
  intro order
  induction order with
  | nil =>
    intro _ x rem
    exact ⟨rfl, fun h => h, le_refl _, fun hb => hb⟩
  | cons sid rest ih =>
    intro hmem x rem
    have hsidmem : sid ∈ sids := hmem sid (List.mem_cons_self sid rest)
    have hrestmem : ∀ s ∈ rest, s ∈ sids :=
      fun s hs => hmem s (List.mem_cons_of_mem sid hs)
    by_cases h1 : rem ≤ 0
    · rw [show distPassUp caps (sid :: rest) x rem = (x, rem) from by
        simp [distPassUp, h1]]
      exact ⟨rfl, fun h => h, le_refl _, fun hb => hb⟩
    · by_cases h2 : x sid < caps sid
      · have heq : distPassUp caps (sid :: rest) x rem
            = distPassUp caps rest (fupd x sid (x sid + 1)) (rem - 1) := by
          simp [distPassUp, h1, h2]
        obtain ⟨ha, hb, hc, hd⟩ := ih hrestmem (fupd x sid (x sid + 1)) (rem - 1)
        rw [heq]
        refine ⟨?_, fun _ => hb (by omega), by omega, ?_⟩
        · rw [ha, keySum_fupd sids x sid (x sid + 1) hsidmem hnd]
          ring
        · intro hbd
          apply hd
          intro s hs
          by_cases hss : s = sid
          · subst hss
            rw [fupd_same]
            have h3 := (hbd s hs).1
            have h4 : caps s ≤ capPos caps s := le_max_right 0 (caps s)
            constructor
            · omega
            · omega
          · rw [fupd_other x sid _ s hss]
            exact hbd s hs
      · have heq : distPassUp caps (sid :: rest) x rem
            = distPassUp caps rest x rem := by
          simp [distPassUp, h1, h2]
        rw [heq]
        exact ih hrestmem x rem

/-- A pass with work left and an eligible station makes strict progress. -/
theorem distPassUp_progress (caps : ℕ → ℤ) (sids : List ℕ) (hnd : sids.Nodup) :
    ∀ (order : List ℕ), (∀ s ∈ order, s ∈ sids) →
    ∀ (x : ℕ → ℤ) (rem : ℤ), 0 < rem → (∃ s ∈ order, x s < caps s) →
      (distPassUp caps order x rem).2 < rem := by
  intro order
  induction order with
  | nil =>
    intro _ x rem _ hex
    obtain ⟨s, hs, _⟩ := hex
    cases hs
  | cons sid rest ih =>
    intro hmem x rem hrem hex
    have hrestmem : ∀ s ∈ rest, s ∈ sids :=
      fun s hs => hmem s (List.mem_cons_of_mem sid hs)
    have h1 : ¬ (rem ≤ 0) := by omega
    by_cases h2 : x sid < caps sid
    · have heq : distPassUp caps (sid :: rest) x rem
          = distPassUp caps rest (fupd x sid (x sid + 1)) (rem - 1) := by
        simp [distPassUp, h1, h2]
      rw [heq]
      have := (distPassUp_spec caps sids hnd rest hrestmem
        (fupd x sid (x sid + 1)) (rem - 1)).2.2.1
      omega
    · have heq : distPassUp caps (sid :: rest) x rem
          = distPassUp caps rest x rem := by
        simp [distPassUp, h1, h2]
      rw [heq]
      apply ih hrestmem x rem hrem
      obtain ⟨s, hs, hxs⟩ := hex
      rcases List.mem_cons.1 hs with hss | hss
      · exact absurd (hss ▸ hxs) h2
      · exact ⟨s, hss, hxs⟩

/-- The upward distribution loop finishes (remainder `0`) whenever its fuel
covers the remainder and the target is feasible. -/
theorem distLoopUp_zero (caps : ℕ → ℤ) (sids : List ℕ) (hnd : sids.Nodup)
    (order : List ℕ) (horder1 : ∀ s ∈ order, s ∈ sids)
    (horder2 : ∀ s ∈ sids, s ∈ order) (T : ℤ)
    (hT : T ≤ totalCapOf caps sids) :
    ∀ (fuel : ℕ) (x : ℕ → ℤ) (rem : ℤ),
      0 ≤ rem → rem ≤ (fuel : ℤ) →
      keySum sids x + rem = T →
      (∀ s ∈ sids, 0 ≤ x s ∧ x s ≤ capPos caps s) →
      (distLoopUp caps order fuel x rem).2 = 0
      ∧ keySum sids (distLoopUp caps order fuel x rem).1 = T
      ∧ (∀ s ∈ sids, 0 ≤ (distLoopUp caps order fuel x rem).1 s
          ∧ (distLoopUp caps order fuel x rem).1 s ≤ capPos caps s) := by
  intro fuel
  induction fuel with
  | zero =>
    intro x rem h0 hf hsum hbd
    have hrem0 : rem = 0 := by exact_mod_cast le_antisymm hf h0
    subst hrem0
    exact ⟨rfl, by simpa using hsum, hbd⟩
  | succ n ih =>
    intro x rem h0 hf hsum hbd
    by_cases h1 : rem ≤ 0
    · have hrem0 : rem = 0 := le_antisymm h1 h0
      subst hrem0
      rw [show distLoopUp caps order (n + 1) x 0 = (x, 0) from by
        simp [distLoopUp]]
      exact ⟨rfl, by simpa using hsum, hbd⟩
    · have hlt : keySum sids x < totalCapOf caps sids := by omega
      have hex : ∃ s ∈ sids, x s < capPos caps s := by
        have : (sids.map x).sum < (sids.map (capPos caps)).sum := hlt
        exact List.exists_lt_of_sum_lt x (capPos caps) this
      obtain ⟨s, hsmem, hslt⟩ := hex
      have hcs : x s < caps s := by
        have := (hbd s hsmem).1
        have h4 : capPos caps s = max 0 (caps s) := rfl
        omega
      have heq : distLoopUp caps order (n + 1) x rem
          = distLoopUp caps order n (distPassUp caps order x rem).1
              (distPassUp caps order x rem).2 := by
        simp [distLoopUp, h1]
      obtain ⟨ha, hb, hc, hd⟩ := distPassUp_spec caps sids hnd order horder1 x rem
      have hprog := distPassUp_progress caps sids hnd order horder1 x rem
        (by omega) ⟨s, horder2 s hsmem, hcs⟩
      rw [heq]
      exact ih (distPassUp caps order x rem).1 (distPassUp caps order x rem).2
        (hb (by omega)) (by omega) (by omega) (hd hbd)

theorem propVal_nonneg (caps : ℕ → ℤ) (totalCap tb : ℤ) (sid : ℕ)
    (htc : 0 < totalCap) (htb : 0 ≤ tb) :
    0 ≤ propVal caps totalCap tb sid := by
  have h1 : (0 : ℚ) ≤ (capPos caps sid : ℚ) := by
    have : (0 : ℤ) ≤ capPos caps sid := le_max_left 0 (caps sid)
    exact_mod_cast this
  have h2 : (0 : ℚ) < (totalCap : ℚ) := by exact_mod_cast htc
  have h3 : (0 : ℚ) ≤ (tb : ℚ) := by exact_mod_cast htb
  exact mul_nonneg (div_nonneg h1 (le_of_lt h2)) h3

theorem propVal_le_cap (caps : ℕ → ℤ) (totalCap tb : ℤ) (sid : ℕ)
    (htc : 0 < totalCap) (htb0 : 0 ≤ tb) (htb : tb ≤ totalCap) :
    propVal caps totalCap tb sid ≤ (capPos caps sid : ℚ) := by
  have h2 : (0 : ℚ) < (totalCap : ℚ) := by exact_mod_cast htc
  have hcp : (0 : ℚ) ≤ (capPos caps sid : ℚ) := by
    have : (0 : ℤ) ≤ capPos caps sid := le_max_left 0 (caps sid)
    exact_mod_cast this
  rw [propVal, div_mul_eq_mul_div, div_le_iff h2]
  have : (tb : ℚ) ≤ (totalCap : ℚ) := by exact_mod_cast htb
  calc (capPos caps sid : ℚ) * (tb : ℚ)
      ≤ (capPos caps sid : ℚ) * (totalCap : ℚ) := by
        exact mul_le_mul_of_nonneg_left this hcp
    _ = (capPos caps sid : ℚ) * (totalCap : ℚ) := rfl

theorem propBase_nonneg (caps : ℕ → ℤ) (totalCap tb : ℤ) (sid : ℕ)
    (htc : 0 < totalCap) (htb : 0 ≤ tb) :
    0 ≤ propBase caps totalCap tb sid :=
  Int.floor_nonneg.2 (propVal_nonneg caps totalCap tb sid htc htb)

theorem propBase_le_cap (caps : ℕ → ℤ) (totalCap tb : ℤ) (sid : ℕ)
    (htc : 0 < totalCap) (htb0 : 0 ≤ tb) (htb : tb ≤ totalCap) :
    propBase caps totalCap tb sid ≤ capPos caps sid := by
  have h := propVal_le_cap caps totalCap tb sid htc htb0 htb
  have h2 : Int.floor (propVal caps totalCap tb sid)
      ≤ Int.floor ((capPos caps sid : ℤ) : ℚ) := Int.floor_le_floor h
  simpa using h2

theorem propInitX_eq_base (caps : ℕ → ℤ) (totalCap tb : ℤ) (sid : ℕ)
    (htc : 0 < totalCap) (htb0 : 0 ≤ tb) (htb : tb ≤ totalCap) :
    propInitX caps totalCap tb sid = propBase caps totalCap tb sid := by
  have h1 := propBase_nonneg caps totalCap tb sid htc htb0
  have h2 := propBase_le_cap caps totalCap tb sid htc htb0 htb
  rw [propInitX]
  omega

theorem propVal_sum (caps : ℕ → ℤ) (sids : List ℕ) (tb : ℤ)
    (htc : 0 < totalCapOf caps sids) :
    (sids.map (propVal caps (totalCapOf caps sids) tb)).sum = (tb : ℚ) := by
  have htc' : ((totalCapOf caps sids : ℤ) : ℚ) ≠ 0 := by
    have : (0 : ℚ) < ((totalCapOf caps sids : ℤ) : ℚ) := by exact_mod_cast htc
    exact ne_of_gt this
  have hmap : ∀ sid, propVal caps (totalCapOf caps sids) tb sid
      = (capPos caps sid : ℚ) * ((tb : ℚ) / ((totalCapOf caps sids : ℤ) : ℚ)) := by
    intro sid
    rw [propVal]
    field_simp
  calc (sids.map (propVal caps (totalCapOf caps sids) tb)).sum
      = (sids.map (fun sid => (capPos caps sid : ℚ)
          * ((tb : ℚ) / ((totalCapOf caps sids : ℤ) : ℚ)))).sum := by
        exact congrArg List.sum (List.map_congr_left (fun sid _ => hmap sid))
    _ = (sids.map (fun sid => (capPos caps sid : ℚ))).sum
          * ((tb : ℚ) / ((totalCapOf caps sids : ℤ) : ℚ)) := by
        exact List.sum_map_mul_right sids _ _
    _ = ((totalCapOf caps sids : ℤ) : ℚ)
          * ((tb : ℚ) / ((totalCapOf caps sids : ℤ) : ℚ)) := by
        have : (sids.map (fun sid => (capPos caps sid : ℚ))).sum
            = ((totalCapOf caps sids : ℤ) : ℚ) := by
          rw [show totalCapOf caps sids = keySum sids (capPos caps) from rfl,
            keySum_cast]
        rw [this]
    _ = (tb : ℚ) := by field_simp

/-- The base assignment undershoots the target by a nonnegative remainder. -/
theorem keySum_base_le (caps : ℕ → ℤ) (sids : List ℕ) (tb : ℤ)
    (htc : 0 < totalCapOf caps sids) (htb0 : 0 ≤ tb) :
    keySum sids (propBase caps (totalCapOf caps sids) tb) ≤ tb := by
  have hcast : ((keySum sids (propBase caps (totalCapOf caps sids) tb) : ℤ) : ℚ)
      ≤ (tb : ℚ) := by
    rw [keySum_cast]
    calc (sids.map (fun s => ((propBase caps (totalCapOf caps sids) tb s : ℤ) : ℚ))).sum
        ≤ (sids.map (propVal caps (totalCapOf caps sids) tb)).sum := by
          apply List.sum_le_sum
          intro s _
          exact Int.floor_le (propVal caps (totalCapOf caps sids) tb s)
      _ = (tb : ℚ) := propVal_sum caps sids tb htc
  exact_mod_cast hcast

/-- `_initialize_bikes_proportional` terminates with nothing left to place
and returns an exact-sum, in-bounds start vector. -/
theorem initializeBikes_spec (caps : ℕ → ℤ) (sids : List ℕ) (hnd : sids.Nodup)
    (tb : ℤ) (h0 : 0 ≤ tb) (hle : tb ≤ totalCapOf caps sids) :
    (initializeBikesProportional caps sids tb).2 = 0
    ∧ keySum sids (initializeBikesProportional caps sids tb).1 = tb
    ∧ (∀ s ∈ sids, 0 ≤ (initializeBikesProportional caps sids tb).1 s
        ∧ (initializeBikesProportional caps sids tb).1 s ≤ capPos caps s) := by
  by_cases htc : totalCapOf caps sids ≤ 0
  · have htb0 : tb = 0 := by omega
    subst htb0
    rw [show initializeBikesProportional caps sids 0 = (fun _ => 0, 0) from by
      simp [initializeBikesProportional, htc]]
    refine ⟨rfl, by simp [keySum], ?_⟩
    intro s _
    exact ⟨le_refl 0, le_max_left 0 (caps s)⟩
  · push_neg at htc
    have hclamp : max 0 (min tb (totalCapOf caps sids)) = tb := by omega
    have hxb : ∀ s ∈ sids, propInitX caps (totalCapOf caps sids) tb s
        = propBase caps (totalCapOf caps sids) tb s :=
      fun s _ => propInitX_eq_base caps (totalCapOf caps sids) tb s htc h0 hle
    have hcursum : keySum sids (propInitX caps (totalCapOf caps sids) tb)
        = keySum sids (propBase caps (totalCapOf caps sids) tb) :=
      keySum_congr sids _ _ hxb
    have hrem0 : 0 ≤ tb - keySum sids (propInitX caps (totalCapOf caps sids) tb) := by
      rw [hcursum]
      have := keySum_base_le caps sids tb htc h0
      omega
    have hbounds : ∀ s ∈ sids,
        0 ≤ propInitX caps (totalCapOf caps sids) tb s
        ∧ propInitX caps (totalCapOf caps sids) tb s ≤ capPos caps s := by
      intro s _
      constructor
      · rw [propInitX]
        have h1 : (0 : ℤ) ≤ capPos caps s := le_max_left 0 (caps s)
        omega
      · rw [propInitX]
        exact min_le_left _ _
    have hunfold : initializeBikesProportional caps sids tb
        = (if 0 < tb - keySum sids (propInitX caps (totalCapOf caps sids) tb) then
            distLoopUp caps
              ((sortStable pairDescQ (sids.map (fun sid =>
                (propFrac caps (totalCapOf caps sids) tb sid, sid)))).map
                  (fun p => p.2))
              (tb - keySum sids (propInitX caps (totalCapOf caps sids) tb)).toNat
              (propInitX caps (totalCapOf caps sids) tb)
              (tb - keySum sids (propInitX caps (totalCapOf caps sids) tb))
          else if tb - keySum sids (propInitX caps (totalCapOf caps sids) tb) < 0 then
            distLoopDown
              ((sortStable pairDescZ (sids.map (fun sid =>
                (propInitX caps (totalCapOf caps sids) tb sid, sid)))).map
                  (fun p => p.2))
              (-(tb - keySum sids (propInitX caps (totalCapOf caps sids) tb))).toNat
              (propInitX caps (totalCapOf caps sids) tb)
              (-(tb - keySum sids (propInitX caps (totalCapOf caps sids) tb)))
          else (propInitX caps (totalCapOf caps sids) tb, 0)) := by
      rw [initializeBikesProportional]
      rw [if_neg (by omega), hclamp]
    rw [hunfold]
    by_cases hpos : 0 < tb - keySum sids (propInitX caps (totalCapOf caps sids) tb)
    · rw [if_pos hpos]
      set order := (sortStable pairDescQ (sids.map (fun sid =>
        (propFrac caps (totalCapOf caps sids) tb sid, sid)))).map (fun p => p.2)
        with horderdef
      have hperm : order.Perm sids := by
        rw [horderdef]
        have h1 := sortStable_perm pairDescQ (sids.map (fun sid =>
          (propFrac caps (totalCapOf caps sids) tb sid, sid)))
        have h2 := h1.map (fun p : ℚ × ℕ => p.2)
        rw [List.map_map] at h2
        have h3 : (List.map ((fun p : ℚ × ℕ => p.2) ∘ fun sid =>
            (propFrac caps (totalCapOf caps sids) tb sid, sid)) sids) = sids := by
          have : ((fun p : ℚ × ℕ => p.2) ∘ fun sid =>
              (propFrac caps (totalCapOf caps sids) tb sid, sid)) = fun sid => sid := rfl
          rw [this, List.map_id']
        rw [h3] at h2
        exact h2
      have horder1 : ∀ s ∈ order, s ∈ sids := fun s hs => hperm.mem_iff.1 hs
      have horder2 : ∀ s ∈ sids, s ∈ order := fun s hs => hperm.mem_iff.2 hs
      have hfin := distLoopUp_zero caps sids hnd order horder1 horder2 tb hle
        (tb - keySum sids (propInitX caps (totalCapOf caps sids) tb)).toNat
        (propInitX caps (totalCapOf caps sids) tb)
        (tb - keySum sids (propInitX caps (totalCapOf caps sids) tb))
        hrem0 (by rw [Int.toNat_of_nonneg hrem0]) (by ring) hbounds
      exact hfin
    · rw [if_neg hpos, if_neg (by omega)]
      refine ⟨rfl, ?_, hbounds⟩
      show keySum sids (propInitX caps (totalCapOf caps sids) tb) = tb
      omega

/-- Case split of `optimize_midnight_greedy` into its early exits and the main
branch. -/
theorem optimize_cases (deltas : ℕ → List ℤ) (deltaKeys : List ℕ)
    (caps : ℕ → ℤ) (capKeys : List ℕ) (totalBikes : ℤ)
    (eThr fThr wE wF : ℚ) (maxMoves : Option ℕ) :
    optimizeMidnightGreedy deltas deltaKeys caps capKeys totalBikes
        eThr fThr wE wF maxMoves = emptyMidnightResult
    ∨ optimizeMidnightGreedy deltas deltaKeys caps capKeys totalBikes
        eThr fThr wE wF maxMoves
      = optimizeMain deltas caps eThr fThr wE wF maxMoves
          (capKeys.filter (fun sid => decide (sid ∈ deltaKeys))) totalBikes := by
  rw [optimizeMidnightGreedy]
  by_cases h1 : deltaKeys = []
  · left; rw [if_pos h1]
  · rw [if_neg h1]
    show (if capKeys.filter (fun sid => decide (sid ∈ deltaKeys)) = []
        then emptyMidnightResult
        else optimizeMain deltas caps eThr fThr wE wF maxMoves
          (capKeys.filter (fun sid => decide (sid ∈ deltaKeys))) totalBikes)
      = emptyMidnightResult ∨ _
    by_cases h2 : capKeys.filter (fun sid => decide (sid ∈ deltaKeys)) = []
    · left; rw [if_pos h2]
    · right; rw [if_neg h2]

theorem optimizeMain_sids (deltas : ℕ → List ℤ) (caps : ℕ → ℤ)
    (eThr fThr wE wF : ℚ) (maxMoves : Option ℕ) (sids : List ℕ) (totalBikes : ℤ) :
    (optimizeMain deltas caps eThr fThr wE wF maxMoves sids totalBikes).sids
      = sids := rfl

theorem optimizeMain_bikes (deltas : ℕ → List ℤ) (caps : ℕ → ℤ)
    (eThr fThr wE wF : ℚ) (maxMoves : Option ℕ) (sids : List ℕ) (totalBikes : ℤ) :
    (optimizeMain deltas caps eThr fThr wE wF maxMoves sids totalBikes).bikes
      = (greedyLoop deltas caps eThr fThr wE wF sids
          (match maxMoves with
            | some m => m
            | none => max 1000 (max 0 (min totalBikes (totalCapOf caps sids))).toNat)
          (sids.foldl (recomputeStation deltas caps eThr fThr wE wF)
            ⟨(initializeBikesProportional caps sids
                (max 0 (min totalBikes (totalCapOf caps sids)))).1,
              fun _ => 0, fun _ => ⊥, fun _ => ⊥, 0⟩)).x := rfl

theorem optimizeMain_costs (deltas : ℕ → List ℤ) (caps : ℕ → ℤ)
    (eThr fThr wE wF : ℚ) (maxMoves : Option ℕ) (sids : List ℕ) (totalBikes : ℤ) :
    (optimizeMain deltas caps eThr fThr wE wF maxMoves sids totalBikes).initialCost
      = costSum sids (sids.foldl (recomputeStation deltas caps eThr fThr wE wF)
          ⟨(initializeBikesProportional caps sids
              (max 0 (min totalBikes (totalCapOf caps sids)))).1,
            fun _ => 0, fun _ => ⊥, fun _ => ⊥, 0⟩).cost
    ∧ (optimizeMain deltas caps eThr fThr wE wF maxMoves sids totalBikes).finalCost
      = costSum sids (greedyLoop deltas caps eThr fThr wE wF sids
          (match maxMoves with
            | some m => m
            | none => max 1000 (max 0 (min totalBikes (totalCapOf caps sids))).toNat)
          (sids.foldl (recomputeStation deltas caps eThr fThr wE wF)
            ⟨(initializeBikesProportional caps sids
                (max 0 (min totalBikes (totalCapOf caps sids)))).1,
              fun _ => 0, fun _ => ⊥, fun _ => ⊥, 0⟩)).cost :=
  ⟨rfl, rfl⟩

/-- C6: the allocation returned by `optimize_midnight_greedy` assigns each
shared station a value in `[0, cap_s]`, and the values sum exactly to
`clamp(total_bikes, 0, Σ cap_s)` over the shared stations; the sum constraint
already holds after proportional initialization and is preserved by every
greedy 1-bike transfer.  (Station dict keys are unique, and capacities are
non-negative integers per the data model.) -/
theorem c6_allocation_invariants (deltas : ℕ → List ℤ) (deltaKeys : List ℕ)
    (caps : ℕ → ℤ) (capKeys : List ℕ) (totalBikes : ℤ)
    (eThr fThr wE wF : ℚ) (maxMoves : Option ℕ)
    (hnd : capKeys.Nodup) (hcap : ∀ s ∈ capKeys, 0 ≤ caps s) :
    (∀ s ∈ (optimizeMidnightGreedy deltas deltaKeys caps capKeys totalBikes
        eThr fThr wE wF maxMoves).sids,
      0 ≤ (optimizeMidnightGreedy deltas deltaKeys caps capKeys totalBikes
          eThr fThr wE wF maxMoves).bikes s
      ∧ (optimizeMidnightGreedy deltas deltaKeys caps capKeys totalBikes
          eThr fThr wE wF maxMoves).bikes s ≤ caps s)
    ∧ keySum (optimizeMidnightGreedy deltas deltaKeys caps capKeys totalBikes
          eThr fThr wE wF maxMoves).sids
        (optimizeMidnightGreedy deltas deltaKeys caps capKeys totalBikes
          eThr fThr wE wF maxMoves).bikes
      = max 0 (min totalBikes
          (keySum (optimizeMidnightGreedy deltas deltaKeys caps capKeys totalBikes
            eThr fThr wE wF maxMoves).sids caps))
    ∧ keySum (capKeys.filter (fun sid => decide (sid ∈ deltaKeys)))
        (initializeBikesProportional caps
          (capKeys.filter (fun sid => decide (sid ∈ deltaKeys)))
          (max 0 (min totalBikes (totalCapOf caps
            (capKeys.filter (fun sid => decide (sid ∈ deltaKeys))))))).1
      = max 0 (min totalBikes (totalCapOf caps
          (capKeys.filter (fun sid => decide (sid ∈ deltaKeys)))))
    ∧ (∀ (fuel : ℕ) (st : GreedyState),
        keySum (capKeys.filter (fun sid => decide (sid ∈ deltaKeys)))
          (greedyLoop deltas caps eThr fThr wE wF
            (capKeys.filter (fun sid => decide (sid ∈ deltaKeys))) fuel st).x
        = keySum (capKeys.filter (fun sid => decide (sid ∈ deltaKeys))) st.x) := by
  set sids := capKeys.filter (fun sid => decide (sid ∈ deltaKeys)) with hsidsdef
  have hnds : sids.Nodup := hnd.filter _
  have hcapz : ∀ s ∈ sids, 0 ≤ caps s := by
    intro s hs
    exact hcap s (List.mem_of_mem_filter hs)
  have htot : totalCapOf caps sids = keySum sids caps := by
    apply keySum_congr
    intro s hs
    have := hcapz s hs
    rw [capPos]
    omega
  have htotnn : 0 ≤ totalCapOf caps sids := by
    apply List.sum_nonneg
    intro z hz
    obtain ⟨s, _, hzeq⟩ := List.mem_map.1 hz
    rw [← hzeq]
    exact le_max_left 0 (caps s)
  have h0 : 0 ≤ max 0 (min totalBikes (totalCapOf caps sids)) := le_max_left _ _
  have hle : max 0 (min totalBikes (totalCapOf caps sids)) ≤ totalCapOf caps sids := by
    omega
  obtain ⟨hrem, hsum, hbd⟩ := initializeBikes_spec caps sids hnds
    (max 0 (min totalBikes (totalCapOf caps sids))) h0 hle
  refine ⟨?_, ?_, hsum, fun fuel st => greedyLoop_keySum deltas caps eThr fThr wE wF
    sids hnds fuel st⟩
  all_goals
    rcases optimize_cases deltas deltaKeys caps capKeys totalBikes
      eThr fThr wE wF maxMoves with hcase | hcase
  · rw [hcase]
    intro s hs
    cases hs
  · rw [hcase, optimizeMain_sids, optimizeMain_bikes]
    apply greedyLoop_bounds
    have hx0 : (sids.foldl (recomputeStation deltas caps eThr fThr wE wF)
        ⟨(initializeBikesProportional caps sids
            (max 0 (min totalBikes (totalCapOf caps sids)))).1,
          fun _ => 0, fun _ => ⊥, fun _ => ⊥, 0⟩).x
        = (initializeBikesProportional caps sids
            (max 0 (min totalBikes (totalCapOf caps sids)))).1 :=
      foldl_recompute_x deltas caps eThr fThr wE wF sids _
    rw [hx0]
    intro s hs
    obtain ⟨hb1, hb2⟩ := hbd s hs
    have hc := hcapz s hs
    have : capPos caps s = caps s := by rw [capPos]; omega
    rw [this] at hb2
    exact ⟨hb1, hb2⟩
  · rw [hcase]
    show (0 : ℤ) = max 0 (min totalBikes (keySum ([] : List ℕ) caps))
    show (0 : ℤ) = max 0 (min totalBikes 0)
    omega
  · rw [hcase, optimizeMain_sids, optimizeMain_bikes,
      greedyLoop_keySum deltas caps eThr fThr wE wF sids hnds,
      foldl_recompute_x deltas caps eThr fThr wE wF sids _]
    show keySum sids (initializeBikesProportional caps sids
        (max 0 (min totalBikes (totalCapOf caps sids)))).1
      = max 0 (min totalBikes (keySum sids caps))
    rw [hsum, htot]

/-- Witness for `c6_allocation_invariants`: two stations of capacity 2,
flat deltas, three bikes to place. -/
theorem c6_witness :
    ([1, 2] : List ℕ).Nodup ∧ (∀ s ∈ ([1, 2] : List ℕ), 0 ≤ (fun _ => (2:ℤ)) s)
    ∧ keySum (optimizeMidnightGreedy (fun _ => [0]) [1, 2] (fun _ => 2) [1, 2] 3
          (1/10) (9/10) 1 1 none).sids
        (optimizeMidnightGreedy (fun _ => [0]) [1, 2] (fun _ => 2) [1, 2] 3
          (1/10) (9/10) 1 1 none).bikes
      = max 0 (min 3
          (keySum (optimizeMidnightGreedy (fun _ => [0]) [1, 2] (fun _ => 2) [1, 2] 3
            (1/10) (9/10) 1 1 none).sids (fun _ => 2))) :=
  ⟨by decide, by decide,
    (c6_allocation_invariants (fun _ => [0]) [1, 2] (fun _ => 2) [1, 2] 3
      (1/10) (9/10) 1 1 none (by decide) (by decide)).2.1⟩

/-- C9: `optimize_midnight_greedy` returns `final_cost ≤ initial_cost`: the
greedy loop commits a transfer only when the cached joint gain exceeds
`1e-9`, and (station costs depending only on the station's own count) each
committed transfer lowers the cached total by exactly that gain.  Station
dict keys are unique. -/
theorem c9_allocator_monotone (deltas : ℕ → List ℤ) (deltaKeys : List ℕ)
    (caps : ℕ → ℤ) (capKeys : List ℕ) (totalBikes : ℤ)
    (eThr fThr wE wF : ℚ) (maxMoves : Option ℕ) (hnd : capKeys.Nodup) :
    (optimizeMidnightGreedy deltas deltaKeys caps capKeys totalBikes
        eThr fThr wE wF maxMoves).finalCost
      ≤ (optimizeMidnightGreedy deltas deltaKeys caps capKeys totalBikes
        eThr fThr wE wF maxMoves).initialCost := by
  rcases optimize_cases deltas deltaKeys caps capKeys totalBikes
    eThr fThr wE wF maxMoves with hcase | hcase
  · rw [hcase]
    exact le_refl _
  · rw [hcase]
    obtain ⟨hinit, hfinal⟩ := optimizeMain_costs deltas caps eThr fThr wE wF maxMoves
      (capKeys.filter (fun sid => decide (sid ∈ deltaKeys))) totalBikes
    rw [hinit, hfinal]
    exact greedyLoop_cost_le deltas caps eThr fThr wE wF
      (capKeys.filter (fun sid => decide (sid ∈ deltaKeys))) (hnd.filter _) _ _
      (foldl_recompute_cacheAt deltas caps eThr fThr wE wF _ _)

/-- Witness for `c9_allocator_monotone`: one station, a draining delta. -/
theorem c9_witness :
    ([1] : List ℕ).Nodup
    ∧ (optimizeMidnightGreedy (fun _ => [-2]) [1] (fun _ => 4) [1] 2
        (1/2) (9/10) 1 1 none).finalCost
      ≤ (optimizeMidnightGreedy (fun _ => [-2]) [1] (fun _ => 4) [1] 2
        (1/2) (9/10) 1 1 none).initialCost :=
  ⟨by decide,
    c9_allocator_monotone (fun _ => [-2]) [1] (fun _ => 4) [1] 2
      (1/2) (9/10) 1 1 none (by decide)⟩

/-- C10: under `0 ≤ total_bikes ≤ Σ max(0, cap_s)` the remainder-distribution
loops of `_initialize_bikes_proportional` terminate — the model's fuel (the
initial remainder) is never exhausted and the loop exits with remainder `0` —
because every full pass with work left strictly decreases the remainder (some
station always sits below its capacity).  Both facts are stated: loop
completion, and strict per-pass progress. -/
theorem c10_initializer_terminates (caps : ℕ → ℤ) (sids : List ℕ)
    (totalBikes : ℤ) (hnd : sids.Nodup) (h0 : 0 ≤ totalBikes)
    (hle : totalBikes ≤ totalCapOf caps sids) :
    (initializeBikesProportional caps sids totalBikes).2 = 0
    ∧ (∀ (order : List ℕ) (x : ℕ → ℤ) (rem : ℤ), (∀ s ∈ order, s ∈ sids) →
        0 < rem → (∃ s ∈ order, x s < caps s) →
        (distPassUp caps order x rem).2 < rem) :=
  ⟨(initializeBikes_spec caps sids hnd totalBikes h0 hle).1,
    fun order x rem hmem hr hex =>
      distPassUp_progress caps sids hnd order hmem x rem hr hex⟩

/-- Witness for `c10_initializer_terminates`: two stations of capacity 2,
three bikes (a positive remainder actually flows through the loop). -/
theorem c10_witness :
    (0 : ℤ) ≤ 3 ∧ (3 : ℤ) ≤ totalCapOf (fun _ => 2) [1, 2]
    ∧ (initializeBikesProportional (fun _ => 2) [1, 2] 3).2 = 0 :=
  ⟨by decide, by decide,
    (c10_initializer_terminates (fun _ => 2) [1, 2] 3 (by decide) (by decide)
      (by decide)).1⟩

/-! ### Claim C1: replay trajectories vs. the allocator's scored
trajectories.  Supporting list lemmas first. -/

theorem takeWhile_step {α : Type} (p1 p2 : α → Bool)
    (himp : ∀ x, p1 x = true → p2 x = true) (l : List α) :
    l.takeWhile p2 = l.takeWhile p1 ++ (l.dropWhile p1).takeWhile p2 := by
  induction l with
  | nil => rfl
  | cons a t ih =>
    by_cases h1 : p1 a
    · rw [List.takeWhile_cons_of_pos (himp a h1), List.takeWhile_cons_of_pos h1,
        List.dropWhile_cons_of_pos h1, List.cons_append, ih]
    · rw [List.takeWhile_cons_of_neg h1, List.dropWhile_cons_of_neg h1]
      simp

theorem takeWhile_eq_take_length {α : Type} (p : α → Bool) (l : List α) :
    l.takeWhile p = l.take (l.takeWhile p).length := by
  induction l with
  | nil => rfl
  | cons a t ih =>
    by_cases h : p a
    · rw [List.takeWhile_cons_of_pos h]
      simp only [List.length_cons, List.take_succ_cons]
      rw [← ih]
    · have h' : p a = false := by simpa using h
      simp [List.takeWhile_cons, h']

/-- Net effect of an event list on one station's count, ignoring clamps:
`#end − #start`. -/
def evNet (l : List Ev) : ℤ :=
  (l.countP (fun e => !e.isStart) : ℤ) - (l.countP (fun e => e.isStart) : ℤ)

theorem evNet_nil : evNet [] = 0 := rfl

theorem evNet_cons (e : Ev) (l : List Ev) :
    evNet (e :: l) = (if e.isStart then -1 else 1) + evNet l := by
  by_cases h : e.isStart
  · simp [evNet, List.countP_cons, h]
    ring
  · simp [evNet, List.countP_cons, h]
    ring

theorem evNet_append (l1 l2 : List Ev) :
    evNet (l1 ++ l2) = evNet l1 + evNet l2 := by
  simp [evNet, List.countP_append]
  ring

theorem evNet_perm (l1 l2 : List Ev) (h : l1.Perm l2) : evNet l1 = evNet l2 := by
  simp [evNet, h.countP_eq]

/-- Per-station event application (the body of the replay's event loop for a
single station of capacity `cap`). -/
def applyEvS (cap : ℤ) (x : ℤ) (e : Ev) : ℤ :=
  if cap ≤ 0 then x
  else if e.isStart then (if x > 0 then x - 1 else x)
  else (if x < cap then x + 1 else x)

/-- Consuming the global event stream and then reading station `s` is the same
as consuming only `s`'s events with `s`'s capacity. -/
theorem foldl_applyEv_proj (caps : ℕ → ℤ) (capKeys : List ℕ) (l : List Ev)
    (m : ℕ → ℤ) (s : ℕ) (hs : s ∈ capKeys) :
    (l.foldl (applyEv caps capKeys) m) s
      = (l.filter (fun e => e.sid = s)).foldl (applyEvS (caps s)) (m s) := by
  induction l generalizing m with
  | nil => rfl
  | cons e t ih =>
    rw [List.foldl_cons]
    by_cases hes : e.sid = s
    · rw [List.filter_cons_of_pos (by simpa using hes), List.foldl_cons, ih]
      have hmap : (applyEv caps capKeys m e) s = applyEvS (caps s) (m s) e := by
        rw [applyEv, applyEvS, hes]
        rw [if_pos hs]
        by_cases hc : caps s ≤ 0
        · rw [if_pos hc, if_pos hc]
        · rw [if_neg hc, if_neg hc]
          by_cases hst : e.isStart
          · rw [if_pos hst, if_pos hst]
            by_cases hx : m s > 0
            · rw [if_pos hx, if_pos hx, fupd_same]
            · rw [if_neg hx, if_neg hx]
          · rw [if_neg hst, if_neg hst]
            by_cases hx : m s < caps s
            · rw [if_pos hx, if_pos hx, fupd_same]
            · rw [if_neg hx, if_neg hx]
      rw [hmap]
    · rw [List.filter_cons_of_neg (by simpa using hes), ih]
      have hmap : (applyEv caps capKeys m e) s = m s := by
        rw [applyEv]
        by_cases hc : (if e.sid ∈ capKeys then caps e.sid else 0) ≤ 0
        · rw [if_pos hc]
        · rw [if_neg hc]
          by_cases hst : e.isStart
          · rw [if_pos hst]
            by_cases hx : m e.sid > 0
            · rw [if_pos hx, fupd_other m e.sid _ s (fun hh => hes hh.symm)]
            · rw [if_neg hx]
          · rw [if_neg hst]
            by_cases hx : m e.sid < (if e.sid ∈ capKeys then caps e.sid else 0)
            · rw [if_pos hx, fupd_other m e.sid _ s (fun hh => hes hh.symm)]
            · rw [if_neg hx]
      rw [hmap]

/-- When the running balance never leaves `[0, cap]`, no per-event clamp
fires and the fold is the plain net sum. -/
theorem foldl_applyEvS_no_clamp (cap : ℤ) (hc : 0 < cap) :
    ∀ (l : List Ev) (x0 : ℤ),
      (∀ n : ℕ, 0 ≤ x0 + evNet (l.take n) ∧ x0 + evNet (l.take n) ≤ cap) →
      l.foldl (applyEvS cap) x0 = x0 + evNet l := by
  intro l
  induction l with
  | nil =>
    intro x0 _
    simp [evNet]
  | cons e t ih =>
    intro x0 h
    have h1 := h 1
    rw [List.take_succ_cons, List.take_zero, evNet_cons, evNet_nil] at h1
    have hstep : applyEvS cap x0 e = x0 + (if e.isStart then -1 else 1) := by
      rw [applyEvS, if_neg (by omega)]
      by_cases hst : e.isStart
      · simp only [if_pos hst]
        simp [hst] at h1
        rw [if_pos (by omega : x0 > 0)]
        omega
      · simp only [if_neg hst]
        simp [hst] at h1
        rw [if_pos (by omega : x0 < cap)]
    rw [List.foldl_cons, hstep, evNet_cons]
    have hrec := ih (x0 + (if e.isStart then -1 else 1)) (by
      intro n
      have hn := h (n + 1)
      rw [List.take_succ_cons, evNet_cons] at hn
      constructor
      · have := hn.1; omega
      · have := hn.2; omega)
    rw [hrec]
    ring

/-- With no planned moves, the bucket loop records at key `a + b·bm` the fold
of `applyEv` over exactly the events with timestamp `< a + (b+1)·bm`, and
leaves snapshot keys below `a` untouched. -/
theorem replayBuckets_snaps (caps : ℕ → ℤ) (capKeys : List ℕ) (bm : ℕ)
    (mph : Option ℤ) (hbm : 0 < bm) :
    ∀ (n a : ℕ) (st : SimState),
      (∀ b : ℕ, b < n →
        ((List.range' a n bm).foldl (replayBucketStep caps capKeys bm [] mph) st).snaps
            (a + b * bm)
          = (st.evs.takeWhile
              (fun e => decide (e.ts < ((a + (b + 1) * bm : ℕ) : ℤ)))).foldl
              (applyEv caps capKeys) st.bikes)
      ∧ (∀ t : ℕ, t < a →
        ((List.range' a n bm).foldl (replayBucketStep caps capKeys bm [] mph) st).snaps t
          = st.snaps t) := by
  intro n
  induction n with
  | zero =>
    intro a st
    exact ⟨fun b hb => absurd hb (by omega), fun t _ => rfl⟩
  | succ n ih =>
    intro a st
    rw [List.range'_succ, List.foldl_cons]
    have hsnaps : (replayBucketStep caps capKeys bm [] mph st a).snaps
        = fupd st.snaps a
            ((st.evs.takeWhile (fun e => decide (e.ts < (a : ℤ) + (bm : ℤ)))).foldl
              (applyEv caps capKeys) st.bikes) := rfl
    have hbikes : (replayBucketStep caps capKeys bm [] mph st a).bikes
        = (st.evs.takeWhile (fun e => decide (e.ts < (a : ℤ) + (bm : ℤ)))).foldl
            (applyEv caps capKeys) st.bikes := rfl
    have hevs : (replayBucketStep caps capKeys bm [] mph st a).evs
        = st.evs.dropWhile (fun e => decide (e.ts < (a : ℤ) + (bm : ℤ))) := rfl
    obtain ⟨ih1, ih2⟩ := ih (a + bm) (replayBucketStep caps capKeys bm [] mph st a)
    constructor
    · intro b hb
      match b with
      | 0 =>
        have hlt : a + 0 * bm < a + bm := by omega
        have h2 := ih2 (a + 0 * bm) hlt
        rw [h2, hsnaps]
        have hk : a + 0 * bm = a := by omega
        rw [hk, fupd_same]
        have hpeq : (fun e : Ev => decide (e.ts < ((a + (0 + 1) * bm : ℕ) : ℤ)))
            = fun e : Ev => decide (e.ts < (a : ℤ) + (bm : ℤ)) := by
          funext e
          rw [decide_eq_decide]
          omega
        rw [hpeq]
      | b' + 1 =>
        have hb' : b' < n := by omega
        have h1 := ih1 b' hb'
        have hk : a + (b' + 1) * bm = (a + bm) + b' * bm := by ring
        rw [hk, h1, hbikes, hevs]
        have hnk : a + bm + (b' + 1) * bm = a + (b' + 1 + 1) * bm := by ring
        rw [hnk]
        have hle : bm ≤ (b' + 1 + 1) * bm := Nat.le_mul_of_pos_left bm (by omega)
        rw [takeWhile_step (fun e : Ev => decide (e.ts < (a : ℤ) + (bm : ℤ)))
          (fun e : Ev => decide (e.ts < ((a + (b' + 1 + 1) * bm : ℕ) : ℤ)))
          (by intro e he; simp only [decide_eq_true_eq] at he ⊢; omega) st.evs]
        rw [List.foldl_append]
    · intro t ht
      have h2 := ih2 t (by omega)
      rw [h2, hsnaps, fupd_other st.snaps a _ t (by omega)]

/-- `build_station_state_by_hour` with an empty planned-move list: the
snapshot at `t = b·bm` is the event fold over the events with
timestamp `< (b+1)·bm`, starting from the clamped initial bikes. -/
theorem buildStationStateByHour_snaps (caps : ℕ → ℤ) (capKeys : List ℕ)
    (initial : ℕ → ℤ) (rows : List TripRow) (bm : ℕ) (mph : Option ℤ)
    (hbm : 0 < bm) (b : ℕ) (hb : b < 1440 / bm) :
    (buildStationStateByHour caps capKeys initial rows bm [] mph).snaps (b * bm)
      = ((eventsOf capKeys rows).takeWhile
          (fun e => decide (e.ts < (((b + 1) * bm : ℕ) : ℤ)))).foldl
          (applyEv caps capKeys) (initBikes caps capKeys initial) := by
  have h := (replayBuckets_snaps caps capKeys bm mph hbm (1440 / bm) 0
    ⟨initBikes caps capKeys initial, eventsOf capKeys rows, fun _ => 0, [],
      fun _ _ => 0⟩).1 b hb
  simp only [Nat.zero_add] at h
  exact h

/-- Per-station view of a replay snapshot: station `s`'s value at `t = b·bm`
is the per-station fold over `s`'s own events with timestamp `< (b+1)·bm`. -/
theorem replay_station_snap (caps : ℕ → ℤ) (capKeys : List ℕ) (initial : ℕ → ℤ)
    (rows : List TripRow) (bm : ℕ) (mph : Option ℤ) (hbm : 0 < bm)
    (s : ℕ) (hs : s ∈ capKeys) (b : ℕ) (hb : b < 1440 / bm) :
    (buildStationStateByHour caps capKeys initial rows bm [] mph).snaps (b * bm) s
      = (((eventsOf capKeys rows).filter (fun e => e.sid = s)).filter
          (fun e => decide (e.ts < (((b + 1) * bm : ℕ) : ℤ)))).foldl
          (applyEvS (caps s)) (initBikes caps capKeys initial s) := by
  have h0 := congrFun
    (buildStationStateByHour_snaps caps capKeys initial rows bm mph hbm b hb) s
  rw [h0, foldl_applyEv_proj caps capKeys _ _ s hs]
  have hsorted : (eventsOf capKeys rows).Pairwise
      (fun x y => decide (x.ts ≤ y.ts) = true) := by
    apply pairwise_sortStable
    · intro x y
      rcases le_total x.ts y.ts with h | h
      · left
        simpa using h
      · right
        simpa using h
    · intro x y z hxy hyz
      simp only [decide_eq_true_eq] at *
      omega
  have htf := takeWhile_eq_filter_of_pairwise (fun a c => decide (a.ts ≤ c.ts))
    (fun e => decide (e.ts < (((b + 1) * bm : ℕ) : ℤ)))
    (by
      intro x y hxy hpx
      simp only [decide_eq_true_eq] at hxy
      simp only [decide_eq_false_iff_not, not_lt] at hpx ⊢
      omega)
    (eventsOf capKeys rows) hsorted
  rw [htf]
  congr 1
  rw [List.filter_filter, List.filter_filter]
  apply List.filter_congr
  intro e he
  rw [Bool.and_comm]

/-- Under the no-clamp hypothesis (every prefix of `s`'s own event stream
keeps the running balance inside `[0, cap_s]`) the snapshot value is the
plain net sum over the consumed events. -/
theorem replay_station_snap_no_clamp (caps : ℕ → ℤ) (capKeys : List ℕ)
    (initial : ℕ → ℤ) (rows : List TripRow) (bm : ℕ) (mph : Option ℤ)
    (hbm : 0 < bm) (s : ℕ) (hs : s ∈ capKeys) (b : ℕ) (hb : b < 1440 / bm)
    (hc : 0 < caps s) (hi0 : 0 ≤ initial s) (hi1 : initial s ≤ caps s)
    (hnc : ∀ n : ℕ,
      0 ≤ initial s
          + evNet (((eventsOf capKeys rows).filter (fun e => e.sid = s)).take n)
      ∧ initial s
          + evNet (((eventsOf capKeys rows).filter (fun e => e.sid = s)).take n)
        ≤ caps s) :
    (buildStationStateByHour caps capKeys initial rows bm [] mph).snaps (b * bm) s
      = initial s
        + evNet (((eventsOf capKeys rows).filter (fun e => e.sid = s)).filter
            (fun e => decide (e.ts < (((b + 1) * bm : ℕ) : ℤ)))) := by
  rw [replay_station_snap caps capKeys initial rows bm mph hbm s hs b hb]
  have hib : initBikes caps capKeys initial s = initial s := by
    rw [initBikes]
    rw [if_pos hs, if_neg (by omega), if_neg (by omega)]
  rw [hib]
  have hLsorted : ((eventsOf capKeys rows).filter (fun e => e.sid = s)).Pairwise
      (fun x y => decide (x.ts ≤ y.ts) = true) := by
    apply List.Pairwise.sublist (List.filter_sublist _)
    apply pairwise_sortStable
    · intro x y
      rcases le_total x.ts y.ts with h | h
      · left
        simpa using h
      · right
        simpa using h
    · intro x y z hxy hyz
      simp only [decide_eq_true_eq] at *
      omega
  have htf := takeWhile_eq_filter_of_pairwise (fun a c => decide (a.ts ≤ c.ts))
    (fun e => decide (e.ts < (((b + 1) * bm : ℕ) : ℤ)))
    (by
      intro x y hxy hpx
      simp only [decide_eq_true_eq] at hxy
      simp only [decide_eq_false_iff_not, not_lt] at hpx ⊢
      omega)
    ((eventsOf capKeys rows).filter (fun e => e.sid = s)) hLsorted
  rw [← htf]
  rw [takeWhile_eq_take_length
    (fun e => decide (e.ts < (((b + 1) * bm : ℕ) : ℤ)))
    ((eventsOf capKeys rows).filter (fun e => e.sid = s))]
  apply foldl_applyEvS_no_clamp (caps s) hc
  intro n
  rw [List.take_take]
  exact hnc _

theorem bumpAt_length (l : List ℤ) (i : ℕ) (v : ℤ) :
    (bumpAt l i v).length = l.length := by
  simp [bumpAt]

theorem bumpAt_take_sum :
    ∀ (l : List ℤ) (i : ℕ) (v : ℤ) (n : ℕ), i < l.length →
      ((bumpAt l i v).take n).sum = (l.take n).sum + (if i < n then v else 0) := by
  intro l
  induction l with
  | nil =>
    intro i v n hi
    simp at hi
  | cons a t ih =>
    intro i v n hi
    match i with
    | 0 =>
      rw [bumpAt, List.getD_cons_zero, List.set_cons_zero]
      match n with
      | 0 => simp
      | n' + 1 =>
        simp only [List.take_succ_cons, List.sum_cons, if_pos (Nat.succ_pos n')]
        ring
    | i' + 1 =>
      rw [bumpAt, List.getD_cons_succ, List.set_cons_succ]
      match n with
      | 0 => simp
      | n' + 1 =>
        simp only [List.take_succ_cons, List.sum_cons]
        have hi' : i' < t.length := by simpa using hi
        have := ih i' v n' hi'
        rw [bumpAt] at this
        rw [this]
        by_cases hc : i' < n'
        · rw [if_pos hc, if_pos (by omega : i' + 1 < n' + 1)]
          ring
        · rw [if_neg hc, if_neg (by omega : ¬ i' + 1 < n' + 1)]
          ring

theorem bucketCount_pos (bm : ℕ) (hbm : bucketMinutesValid bm) :
    1 ≤ 1440 / bm := by
  obtain ⟨hpos, hmod⟩ := hbm
  rw [Nat.one_le_div_iff hpos]
  exact Nat.le_of_dvd (by norm_num) (Nat.dvd_of_mod_eq_zero hmod)

theorem bucketIndex_lt_bc (bm : ℕ) (hbm : bucketMinutesValid bm) (m : ℤ) :
    bucketIndex bm (1440 / bm) m < 1440 / bm := by
  have hbc1 := bucketCount_pos bm hbm
  rw [bucketIndex]
  have hm := min_le_left (((1440 / bm : ℕ) : ℤ) - 1) (max 0 (m.fdiv (bm : ℤ)))
  omega

theorem bucketIndex_le_iff (bm : ℕ) (hbm : bucketMinutesValid bm) (m : ℤ)
    (hm0 : 0 ≤ m) (hm1 : m < 1440) (b : ℕ) (hb : b < 1440 / bm) :
    (bucketIndex bm (1440 / bm) m ≤ b ↔ m < (((b + 1) * bm : ℕ) : ℤ)) := by
  obtain ⟨hpos, hmod⟩ := hbm
  have hbc1 := bucketCount_pos bm ⟨hpos, hmod⟩
  have hcz : (0 : ℤ) < (bm : ℤ) := by exact_mod_cast hpos
  have hfd : m.fdiv (bm : ℤ) = m / (bm : ℤ) := Int.fdiv_eq_ediv m (by omega)
  have hq0 : 0 ≤ m / (bm : ℤ) := Int.ediv_nonneg hm0 (by omega)
  have hmul : ((1440 / bm : ℕ) : ℤ) * (bm : ℤ) = 1440 := by
    have h := Nat.div_mul_cancel (Nat.dvd_of_mod_eq_zero hmod)
    exact_mod_cast h
  have hub : m / (bm : ℤ) ≤ ((1440 / bm : ℕ) : ℤ) - 1 := by
    by_contra hcon
    push_neg at hcon
    have h1 : ((1440 / bm : ℕ) : ℤ) ≤ m / (bm : ℤ) := by omega
    have h2 := (Int.le_ediv_iff_mul_le hcz).mp h1
    omega
  have hbi : bucketIndex bm (1440 / bm) m = (m / (bm : ℤ)).toNat := by
    rw [bucketIndex, hfd, max_eq_right hq0, min_eq_right hub]
  rw [hbi]
  constructor
  · intro h
    by_contra hcon
    push_neg at hcon
    push_cast at hcon
    have h2 := (Int.le_ediv_iff_mul_le hcz).mpr hcon
    omega
  · intro h
    by_contra hcon
    push_neg at hcon
    have h1 : ((b : ℤ) + 1) ≤ m / (bm : ℤ) := by omega
    have h2 := (Int.le_ediv_iff_mul_le hcz).mp h1
    push_cast at h
    omega

/-- One row's contribution: the prefix-sum (through bucket `b`) of the
per-station delta array changes by exactly the net effect of that row's
events with timestamp `< (b+1)·bm` at that station. -/
theorem flowsStepPrefixSum (keys : List ℕ) (bm : ℕ) (hbm : bucketMinutesValid bm)
    (s : ℕ) (b : ℕ) (hb : b < 1440 / bm) (dl : ℕ → List ℤ)
    (hlen : ∀ u, (dl u).length = 1440 / bm) (r : TripRow) :
    (((buildBucketFlowsStep keys bm (1440 / bm) dl r) s).take (b + 1)).sum
      = ((dl s).take (b + 1)).sum
        + evNet (((eventsOfRow keys r).filter (fun e => e.sid = s)).filter
            (fun e => decide (e.ts < (((b + 1) * bm : ℕ) : ℤ)))) := by
  simp only [buildBucketFlowsStep, eventsOfRow]
  by_cases h1 : ¬ (0 ≤ r.startMin ∧ r.startMin < 1440)
  · rw [if_pos h1, if_pos h1]
    simp [evNet]
  rw [if_neg h1, if_neg h1]
  by_cases h2 : r.startSid = r.endSid
  · rw [if_pos h2, if_pos h2]
    simp [evNet]
  rw [if_neg h2, if_neg h2]
  by_cases h3 : ¬ (r.startSid ∈ keys ∧ r.endSid ∈ keys)
  · rw [if_pos h3, if_pos h3]
    simp [evNet]
  rw [if_neg h3, if_neg h3]
  push_neg at h1
  have hsb : bucketIndex bm (1440 / bm) r.startMin < (dl r.startSid).length := by
    rw [hlen]
    exact bucketIndex_lt_bc bm hbm r.startMin
  have hevS : evNet [(⟨r.startMin, true, r.startSid⟩ : Ev)] = -1 := by
    simp [evNet]
  have hevE : evNet [(⟨r.endMin, false, r.endSid⟩ : Ev)] = 1 := by
    simp [evNet]
  by_cases h4 : 0 ≤ r.endMin ∧ r.endMin < 1440
  · rw [if_pos h4, if_pos h4]
    have heb : bucketIndex bm (1440 / bm) r.endMin < (dl r.endSid).length := by
      rw [hlen]
      exact bucketIndex_lt_bc bm hbm r.endMin
    by_cases hss : s = r.startSid
    · subst hss
      rw [fupd_other _ r.endSid _ r.startSid h2, fupd_same]
      rw [bumpAt_take_sum (dl r.startSid) _ (-1) (b + 1) hsb]
      have h2' : r.endSid ≠ r.startSid := fun hh => h2 hh.symm
      have hfs : List.filter (fun e : Ev => decide (e.sid = r.startSid))
          [⟨r.startMin, true, r.startSid⟩, ⟨r.endMin, false, r.endSid⟩]
            = [⟨r.startMin, true, r.startSid⟩] := by
        simp [h2']
      rw [hfs]
      by_cases h5 : r.startMin < (((b + 1) * bm : ℕ) : ℤ)
      · have hts : List.filter (fun e : Ev => decide (e.ts < (((b + 1) * bm : ℕ) : ℤ)))
            [⟨r.startMin, true, r.startSid⟩] = [⟨r.startMin, true, r.startSid⟩] := by
          push_cast at h5
          simp [h5]
        rw [hts, hevS]
        have hle : bucketIndex bm (1440 / bm) r.startMin ≤ b :=
          (bucketIndex_le_iff bm hbm r.startMin h1.1 h1.2 b hb).mpr h5
        rw [if_pos (by omega : bucketIndex bm (1440 / bm) r.startMin < b + 1)]
      · have hts : List.filter (fun e : Ev => decide (e.ts < (((b + 1) * bm : ℕ) : ℤ)))
            [⟨r.startMin, true, r.startSid⟩] = [] := by
          push_cast at h5
          simp [h5]
        rw [hts, evNet_nil]
        have hgt : ¬ bucketIndex bm (1440 / bm) r.startMin ≤ b := fun hc =>
          h5 ((bucketIndex_le_iff bm hbm r.startMin h1.1 h1.2 b hb).mp hc)
        rw [if_neg (by omega : ¬ bucketIndex bm (1440 / bm) r.startMin < b + 1)]
    · by_cases hse : s = r.endSid
      · subst hse
        rw [fupd_same, fupd_other dl r.startSid _ r.endSid (fun hh => h2 hh.symm)]
        rw [bumpAt_take_sum (dl r.endSid) _ 1 (b + 1) heb]
        have h2' : r.startSid ≠ r.endSid := h2
        have hfs : List.filter (fun e : Ev => decide (e.sid = r.endSid))
            [⟨r.startMin, true, r.startSid⟩, ⟨r.endMin, false, r.endSid⟩]
              = [⟨r.endMin, false, r.endSid⟩] := by
          simp [h2']
        rw [hfs]
        by_cases h6 : r.endMin < (((b + 1) * bm : ℕ) : ℤ)
        · have hts : List.filter (fun e : Ev => decide (e.ts < (((b + 1) * bm : ℕ) : ℤ)))
              [⟨r.endMin, false, r.endSid⟩] = [⟨r.endMin, false, r.endSid⟩] := by
            push_cast at h6
            simp [h6]
          rw [hts, hevE]
          have hle : bucketIndex bm (1440 / bm) r.endMin ≤ b :=
            (bucketIndex_le_iff bm hbm r.endMin h4.1 h4.2 b hb).mpr h6
          rw [if_pos (by omega : bucketIndex bm (1440 / bm) r.endMin < b + 1)]
        · have hts : List.filter (fun e : Ev => decide (e.ts < (((b + 1) * bm : ℕ) : ℤ)))
              [⟨r.endMin, false, r.endSid⟩] = [] := by
            push_cast at h6
            simp [h6]
          rw [hts, evNet_nil]
          have hgt : ¬ bucketIndex bm (1440 / bm) r.endMin ≤ b := fun hc =>
            h6 ((bucketIndex_le_iff bm hbm r.endMin h4.1 h4.2 b hb).mp hc)
          rw [if_neg (by omega : ¬ bucketIndex bm (1440 / bm) r.endMin < b + 1)]
      · rw [fupd_other _ r.endSid _ s hse, fupd_other dl r.startSid _ s hss]
        have hss' : r.startSid ≠ s := fun hh => hss hh.symm
        have hse' : r.endSid ≠ s := fun hh => hse hh.symm
        have hfs : List.filter (fun e : Ev => decide (e.sid = s))
            [⟨r.startMin, true, r.startSid⟩, ⟨r.endMin, false, r.endSid⟩]
              = [] := by
          simp [hss', hse']
        rw [hfs, List.filter_nil, evNet_nil]
        omega
  · rw [if_neg h4, if_neg h4]
    by_cases hss : s = r.startSid
    · subst hss
      rw [fupd_same]
      rw [bumpAt_take_sum (dl r.startSid) _ (-1) (b + 1) hsb]
      have hfs : List.filter (fun e : Ev => decide (e.sid = r.startSid))
          [⟨r.startMin, true, r.startSid⟩] = [⟨r.startMin, true, r.startSid⟩] := by
        simp
      rw [hfs]
      by_cases h5 : r.startMin < (((b + 1) * bm : ℕ) : ℤ)
      · have hts : List.filter (fun e : Ev => decide (e.ts < (((b + 1) * bm : ℕ) : ℤ)))
            [⟨r.startMin, true, r.startSid⟩] = [⟨r.startMin, true, r.startSid⟩] := by
          push_cast at h5
          simp [h5]
        rw [hts, hevS]
        have hle : bucketIndex bm (1440 / bm) r.startMin ≤ b :=
          (bucketIndex_le_iff bm hbm r.startMin h1.1 h1.2 b hb).mpr h5
        rw [if_pos (by omega : bucketIndex bm (1440 / bm) r.startMin < b + 1)]
      · have hts : List.filter (fun e : Ev => decide (e.ts < (((b + 1) * bm : ℕ) : ℤ)))
            [⟨r.startMin, true, r.startSid⟩] = [] := by
          push_cast at h5
          simp [h5]
        rw [hts, evNet_nil]
        have hgt : ¬ bucketIndex bm (1440 / bm) r.startMin ≤ b := fun hc =>
          h5 ((bucketIndex_le_iff bm hbm r.startMin h1.1 h1.2 b hb).mp hc)
        rw [if_neg (by omega : ¬ bucketIndex bm (1440 / bm) r.startMin < b + 1)]
    · rw [fupd_other dl r.startSid _ s hss]
      have hss' : r.startSid ≠ s := fun hh => hss hh.symm
      have hfs : List.filter (fun e : Ev => decide (e.sid = s))
          [⟨r.startMin, true, r.startSid⟩] = [] := by
        simp [hss']
      rw [hfs, List.filter_nil, evNet_nil]
      omega

theorem buildBucketFlowsStep_length (keys : List ℕ) (bm : ℕ) (dl : ℕ → List ℤ)
    (r : TripRow) (hlen : ∀ u, (dl u).length = 1440 / bm) :
    ∀ u, ((buildBucketFlowsStep keys bm (1440 / bm) dl r) u).length = 1440 / bm := by
  intro u
  simp only [buildBucketFlowsStep]
  by_cases h1 : ¬ (0 ≤ r.startMin ∧ r.startMin < 1440)
  · rw [if_pos h1]
    exact hlen u
  rw [if_neg h1]
  by_cases h2 : r.startSid = r.endSid
  · rw [if_pos h2]
    exact hlen u
  rw [if_neg h2]
  by_cases h3 : ¬ (r.startSid ∈ keys ∧ r.endSid ∈ keys)
  · rw [if_pos h3]
    exact hlen u
  rw [if_neg h3]
  by_cases h4 : 0 ≤ r.endMin ∧ r.endMin < 1440
  · rw [if_pos h4]
    by_cases hu2 : u = r.endSid
    · subst hu2
      rw [fupd_same, bumpAt_length,
        fupd_other dl r.startSid _ r.endSid (fun hh => h2 hh.symm)]
      exact hlen r.endSid
    · rw [fupd_other _ r.endSid _ u hu2]
      by_cases hu1 : u = r.startSid
      · subst hu1
        rw [fupd_same, bumpAt_length]
        exact hlen r.startSid
      · rw [fupd_other dl r.startSid _ u hu1]
        exact hlen u
  · rw [if_neg h4]
    by_cases hu1 : u = r.startSid
    · subst hu1
      rw [fupd_same, bumpAt_length]
      exact hlen r.startSid
    · rw [fupd_other dl r.startSid _ u hu1]
      exact hlen u

theorem buildBucketFlows_length (keys : List ℕ) (bm : ℕ) (rows : List TripRow) :
    ∀ u, ((buildBucketFlows keys bm rows) u).length = 1440 / bm := by
  rw [buildBucketFlows]
  suffices h : ∀ (rs : List TripRow) (dl : ℕ → List ℤ),
      (∀ u, (dl u).length = 1440 / bm) →
      ∀ u, ((rs.foldl (buildBucketFlowsStep keys bm (1440 / bm)) dl) u).length
        = 1440 / bm by
    exact h rows _ (fun u => by simp)
  intro rs
  induction rs with
  | nil =>
    intro dl h u
    exact h u
  | cons r t ih =>
    intro dl h u
    exact ih _ (buildBucketFlowsStep_length keys bm dl r h) u

theorem foldl_append_events (keys : List ℕ) :
    ∀ (rows : List TripRow) (acc : List Ev),
      rows.foldl (fun a r => a ++ eventsOfRow keys r) acc
        = acc ++ (rows.map (eventsOfRow keys)).flatten := by
  intro rows
  induction rows with
  | nil =>
    intro acc
    simp
  | cons r t ih =>
    intro acc
    rw [List.foldl_cons, ih, List.map_cons, List.flatten_cons, List.append_assoc]

/-- Accumulated form of `flowsStepPrefixSum` over a whole row list. -/
theorem flows_prefix_evNet (keys : List ℕ) (bm : ℕ) (hbm : bucketMinutesValid bm)
    (s : ℕ) (b : ℕ) (hb : b < 1440 / bm) :
    ∀ (rows : List TripRow) (dl : ℕ → List ℤ),
      (∀ u, (dl u).length = 1440 / bm) →
      (((rows.foldl (buildBucketFlowsStep keys bm (1440 / bm)) dl) s).take (b + 1)).sum
        = ((dl s).take (b + 1)).sum
          + evNet ((((rows.map (eventsOfRow keys)).flatten).filter
              (fun e => e.sid = s)).filter
              (fun e => decide (e.ts < (((b + 1) * bm : ℕ) : ℤ)))) := by
  intro rows
  induction rows with
  | nil =>
    intro dl hlen
    simp [evNet]
  | cons r t ih =>
    intro dl hlen
    rw [List.foldl_cons, List.map_cons, List.flatten_cons]
    rw [List.filter_append, List.filter_append, evNet_append]
    rw [ih (buildBucketFlowsStep keys bm (1440 / bm) dl r)
      (buildBucketFlowsStep_length keys bm dl r hlen)]
    rw [flowsStepPrefixSum keys bm hbm s b hb dl hlen r]
    ring

/-- The cumulative delta of `build_bucket_flows` through bucket `b` equals the
net event count with timestamp `< (b+1)·bm` at that station. -/
theorem buildBucketFlows_prefixSum (keys : List ℕ) (bm : ℕ)
    (hbm : bucketMinutesValid bm) (s : ℕ) (b : ℕ) (hb : b < 1440 / bm)
    (rows : List TripRow) :
    (((buildBucketFlows keys bm rows) s).take (b + 1)).sum
      = evNet (((eventsOf keys rows).filter (fun e => e.sid = s)).filter
          (fun e => decide (e.ts < (((b + 1) * bm : ℕ) : ℤ)))) := by
  have hlen0 : ∀ u : ℕ,
      ((fun _ : ℕ => List.replicate (1440 / bm) (0 : ℤ)) u).length = 1440 / bm := by
    intro u
    simp
  have hmain := flows_prefix_evNet keys bm hbm s b hb rows
    (fun _ => List.replicate (1440 / bm) (0 : ℤ)) hlen0
  rw [buildBucketFlows, hmain]
  have h0 : ((List.replicate (1440 / bm) (0 : ℤ)).take (b + 1)).sum = 0 := by
    rw [List.take_replicate]
    simp
  rw [h0]
  have hflat : rows.foldl (fun a r => a ++ eventsOfRow keys r) []
      = (rows.map (eventsOfRow keys)).flatten := by
    rw [foldl_append_events keys rows []]
    simp
  have hperm : (((eventsOf keys rows).filter (fun e => e.sid = s)).filter
        (fun e => decide (e.ts < (((b + 1) * bm : ℕ) : ℤ)))).Perm
      ((((rows.map (eventsOfRow keys)).flatten).filter (fun e => e.sid = s)).filter
        (fun e => decide (e.ts < (((b + 1) * bm : ℕ) : ℤ)))) := by
    apply List.Perm.filter
    apply List.Perm.filter
    rw [← hflat]
    exact sortStable_perm _ _
  rw [evNet_perm _ _ hperm]
  ring

theorem stationCostTrajLoop_getD :
    ∀ (ds : List ℤ) (x0 cap cum : ℤ) (b : ℕ), b < ds.length →
      (stationCostTrajLoop x0 cap cum ds).getD b 0
        = clampVal cap (x0 + (cum + (ds.take (b + 1)).sum)) := by
  intro ds
  induction ds with
  | nil =>
    intro x0 cap cum b hb
    simp at hb
  | cons d t ih =>
    intro x0 cap cum b hb
    match b with
    | 0 =>
      simp [stationCostTrajLoop, List.take_succ_cons]
    | b' + 1 =>
      simp only [stationCostTrajLoop, List.getD_cons_succ, List.take_succ_cons,
        List.sum_cons]
      rw [ih x0 cap (cum + d) b' (by simpa using hb)]
      congr 1
      ring

/-- Index `b` of the trajectory that `_station_cost` scores is the
non-compounding clamp of `x0` plus the cumulative delta through bucket `b`. -/
theorem stationCostTraj_getD (x0 cap : ℤ) (delta : List ℤ) (b : ℕ)
    (hb : b < delta.length) :
    (stationCostTraj x0 cap delta).getD b 0
      = clampVal cap (x0 + (delta.take (b + 1)).sum) := by
  rw [stationCostTraj, stationCostTrajLoop_getD delta x0 cap 0 b hb]
  congr 1
  ring

/-- Cutting a station's (timestamp-sorted) event stream at a time bound is a
`take`-prefix of it. -/
theorem filter_ts_take (capKeys : List ℕ) (rows : List TripRow) (s : ℕ) (T : ℤ) :
    ∃ n : ℕ,
      ((eventsOf capKeys rows).filter (fun e => e.sid = s)).filter
          (fun e => decide (e.ts < T))
        = ((eventsOf capKeys rows).filter (fun e => e.sid = s)).take n := by
  have hLsorted : ((eventsOf capKeys rows).filter (fun e => e.sid = s)).Pairwise
      (fun x y => decide (x.ts ≤ y.ts) = true) := by
    apply List.Pairwise.sublist (List.filter_sublist _)
    apply pairwise_sortStable
    · intro x y
      rcases le_total x.ts y.ts with h | h
      · left
        simpa using h
      · right
        simpa using h
    · intro x y z hxy hyz
      simp only [decide_eq_true_eq] at *
      omega
  have htf := takeWhile_eq_filter_of_pairwise (fun a c => decide (a.ts ≤ c.ts))
    (fun e => decide (e.ts < T))
    (by
      intro x y hxy hpx
      simp only [decide_eq_true_eq] at hxy
      simp only [decide_eq_false_iff_not, not_lt] at hpx ⊢
      omega)
    ((eventsOf capKeys rows).filter (fun e => e.sid = s)) hLsorted
  refine ⟨(((eventsOf capKeys rows).filter (fun e => e.sid = s)).takeWhile
      (fun e => decide (e.ts < T))).length, ?_⟩
  rw [← htf]
  exact takeWhile_eq_take_length _ _

/-- C1 fails on the code: with three stations of capacity 10 (ids 1, 2, 3),
total fleet 0 and the two trips 1→3 (minutes 10→20) and 2→1 (minutes 5→15) at
`bucket_minutes = 15`, the allocator assigns 0 bikes everywhere; the replay's
snapshot at `t = 15` shows 1 bike at station 1 (its dropoff was applied to an
empty station, while its earlier pickup was dropped at 0), but the trajectory
`_station_cost` scored for that allocation has 0 bikes at bucket 1, because
the kernel's non-compounding clamp nets the −1 and +1 against each other. -/
theorem c1_counterexample :
    (buildStationStateByHour (fun _ => 10) [1, 2, 3]
        (optimizeMidnightGreedy
            (buildBucketFlows [1, 2, 3] 15 [⟨10, 20, 1, 3⟩, ⟨5, 15, 2, 1⟩])
            [1, 2, 3] (fun _ => 10) [1, 2, 3] 0 (1/10) (9/10) 1 1 none).bikes
        [⟨10, 20, 1, 3⟩, ⟨5, 15, 2, 1⟩] 15 [] none).snaps 15 1 = 1
    ∧ (stationCostTraj
          ((optimizeMidnightGreedy
              (buildBucketFlows [1, 2, 3] 15 [⟨10, 20, 1, 3⟩, ⟨5, 15, 2, 1⟩])
              [1, 2, 3] (fun _ => 10) [1, 2, 3] 0 (1/10) (9/10) 1 1 none).bikes 1)
          10
          (buildBucketFlows [1, 2, 3] 15 [⟨10, 20, 1, 3⟩, ⟨5, 15, 2, 1⟩] 1)).getD 1 0
        = 0 := by
  constructor
  · decide
  · decide

/-- C1 (amended): the replay with empty planned-move list matches the
trajectory scored by `_station_cost` at every station `s` and bucket `b`,
provided no clamp can fire at `s`: the initial count lies in `[0, cap_s]` and
every prefix of `s`'s chronological event stream keeps the running net count
inside `[0, cap_s]`.  (Without that hypothesis the two sides diverge: the
replay clamps event by event and the kernel clamps only the cumulative sum —
see the counterexample.) -/
theorem c1_replay_matches_kernel (caps : ℕ → ℤ) (capKeys : List ℕ)
    (x0 : ℕ → ℤ) (rows : List TripRow) (bm : ℕ) (mph : Option ℤ)
    (hbm : bucketMinutesValid bm) (s : ℕ) (hs : s ∈ capKeys)
    (hc : 0 < caps s) (hi0 : 0 ≤ x0 s) (hi1 : x0 s ≤ caps s)
    (hnc : ∀ n : ℕ,
      0 ≤ x0 s
          + evNet (((eventsOf capKeys rows).filter (fun e => e.sid = s)).take n)
      ∧ x0 s
          + evNet (((eventsOf capKeys rows).filter (fun e => e.sid = s)).take n)
        ≤ caps s)
    (b : ℕ) (hb : b < 1440 / bm) :
    (buildStationStateByHour caps capKeys x0 rows bm [] mph).snaps (b * bm) s
      = (stationCostTraj (x0 s) (caps s)
          (buildBucketFlows capKeys bm rows s)).getD b 0 := by
  rw [replay_station_snap_no_clamp caps capKeys x0 rows bm mph hbm.1 s hs b hb
    hc hi0 hi1 hnc]
  rw [stationCostTraj_getD (x0 s) (caps s) _ b
    (by rw [buildBucketFlows_length]; exact hb)]
  rw [buildBucketFlows_prefixSum capKeys bm hbm s b hb rows]
  obtain ⟨n0, hn0⟩ := filter_ts_take capKeys rows s (((b + 1) * bm : ℕ) : ℤ)
  rw [hn0]
  exact (clampVal_of_mem_range _ _ (hnc n0).1 (hnc n0).2).symm

theorem c1_witness :
    (buildStationStateByHour (fun _ => 10) [1] (fun _ => 5) [] 60 [] none).snaps
        (0 * 60) 1
      = (stationCostTraj 5 10 (buildBucketFlows [1] 60 [] 1)).getD 0 0 :=
  c1_replay_matches_kernel (fun _ => 10) [1] (fun _ => 5) [] 60 none
    (by decide) 1 (by decide) (by decide) (by decide) (by decide)
    (by
      intro n
      simp [eventsOf, sortStable, evNet])
    0 (by decide)

/-! ### Clustered day planner (`cluster/truck_clustered.py`).

Floats are exact rationals.  `math.log1p` (station priority) and
`_haversine_km` (pair distance) are abstracted as parameters `prio` and
`distKm` (`distKm _ _ = none` models a station pair with missing lat/lon);
`station_cluster.get(sid, -1)` is the parameter `clusterOf`; the
`ValueError` branches for an invalid service window become hypotheses of the
theorems. -/

/-- `get_cluster_hour_multipliers` (returns `(bike_need_mult,
dock_need_mult)`). -/
def clusterHourMult (cid hour : ℤ) : ℚ × ℚ :=
  let bikeMult : ℚ := 1
  let dockMult : ℚ := 1
  let dockMult := if cid = 7 ∧ 7 ≤ hour ∧ hour ≤ 10 then dockMult * (5/2) else dockMult
  let bikeMult := if cid = 5 ∧ 6 ≤ hour ∧ hour ≤ 9 then bikeMult * 2 else bikeMult
  let bikeMult := if cid = 4 ∧ (22 ≤ hour ∨ hour ≤ 2) then bikeMult * 2 else bikeMult
  (bikeMult, dockMult)

/-- `_future_sum`: sum of `series[start_b : min(len, start_b + lookahead_b)]`. -/
def futureSum (series : List ℤ) (startB lookB : ℕ) : ℤ :=
  ((series.take (min series.length (startB + lookB))).drop startB).sum

/-- Loop of the clustered `_cost_from_bucket`: buffer-shortage penalties with
cluster/hour multipliers plus the optional background threshold penalty,
scored at the start of each bucket and advanced by the clamped recurrence. -/
def clusteredCostLoop (cid : ℤ) (cap : ℤ) (pickups dropoffs : List ℤ)
    (bm lookB : ℕ) (puMult doMult wBike wDock : ℚ) (useThr : Bool)
    (eL fL wE wF : ℚ) : ℕ → ℤ → List ℤ → ℚ
  | _, _, [] => 0
  | b, x, d :: ds =>
    let hour : ℤ := ((b * bm / 60 % 24 : ℕ) : ℤ)
    let futPu := futureSum pickups b lookB
    let futDo := futureSum dropoffs b lookB
    let bikesNeeded := puMult * (futPu : ℚ)
    let docksNeeded := doMult * (futDo : ℚ)
    let emptyDocks := cap - x
    let bikeShort := max 0 (bikesNeeded - (x : ℚ))
    let dockShort := max 0 (docksNeeded - (emptyDocks : ℚ))
    let mults := if 0 ≤ cid then clusterHourMult cid hour else ((1 : ℚ), (1 : ℚ))
    let c1 : ℚ := if bikeShort > 0 then wBike * mults.1 * bikeShort else 0
    let c2 : ℚ := if dockShort > 0 then wDock * mults.2 * dockShort else 0
    let c3 : ℚ := if useThr = true ∧ (x : ℚ) < eL then wE * (eL - (x : ℚ)) else 0
    let c4 : ℚ := if useThr = true ∧ (x : ℚ) > fL then wF * ((x : ℚ) - fL) else 0
    c1 + c2 + c3 + c4
      + clusteredCostLoop cid cap pickups dropoffs bm lookB puMult doMult
          wBike wDock useThr eL fL wE wF (b + 1) (stepClamp cap x d) ds

/-- Clustered `_cost_from_bucket`. -/
def clusteredCostFromBucket (cid : ℤ) (startB : ℕ) (xStart cap : ℤ)
    (delta pickups dropoffs : List ℤ) (bm lookB : ℕ)
    (puMult doMult wBike wDock : ℚ) (useThr : Bool)
    (eThr fThr wE wF : ℚ) : ℚ :=
  if cap ≤ 0 then 0
  else clusteredCostLoop cid cap pickups dropoffs bm lookB puMult doMult wBike
    wDock useThr (eThr * (cap : ℚ)) (fThr * (cap : ℚ)) wE wF
    startB (clamp0 cap xStart) (delta.drop startB)

/-- Clustered `_sink_risk`. -/
def sinkRisk (prio : ℤ → ℚ) (bikesNow cap : ℤ) (b lookB : ℕ)
    (pickups : List ℤ) (puMult : ℚ) (touches : ℤ) : ℚ :=
  if cap ≤ 0 then 0
  else
    let need := puMult * ((futureSum pickups b lookB : ℤ) : ℚ)
    let short := max 0 (need - (bikesNow : ℚ))
    if short ≤ 0 then 0 else short * prio touches

/-- Clustered `_source_risk`. -/
def sourceRisk (prio : ℤ → ℚ) (bikesNow cap : ℤ) (b lookB : ℕ)
    (dropoffs : List ℤ) (doMult : ℚ) (touches : ℤ) : ℚ :=
  if cap ≤ 0 then 0
  else
    let needDocks := doMult * ((futureSum dropoffs b lookB : ℤ) : ℚ)
    let emptyNow : ℚ := ((cap - bikesNow : ℤ) : ℚ)
    let short := max 0 (needDocks - emptyNow)
    if short ≤ 0 then 0 else short * prio touches

/-- Keyword parameters of the clustered `plan_truck_moves_for_day`. -/
structure PlannerCfg where
  bm : ℕ
  movesBudget : ℕ
  truckCap : ℤ
  donorMin : ℤ
  receiverMin : ℤ
  lookaheadMinutes : ℕ
  puMult : ℚ
  doMult : ℚ
  wBike : ℚ
  wDock : ℚ
  useThr : Bool
  eThr : ℚ
  fThr : ℚ
  wE : ℚ
  wF : ℚ
  candTopK : ℕ
  topKSources : ℕ
  topKSinks : ℕ
  useDist : Bool
  distPenaltyPerKm : ℚ
  maxPairKm : Option ℚ
  serviceStartHour : ℕ
  serviceEndHour : ℕ

/-- `sorted(sids, key=_sink_risk(...), reverse=True)[:top_k_sinks]`. -/
def topSinks (prio : ℤ → ℚ) (caps : ℕ → ℤ) (sids : List ℕ) (tr : BucketedTrips)
    (series : ℕ → List ℤ) (lookB : ℕ) (puMult : ℚ) (topK : ℕ) (b0 : ℕ) :
    List ℕ :=
  (sortStable (fun a c => decide
      (sinkRisk prio ((series c).getD b0 0) (caps c) b0 lookB (tr.pickups c)
          puMult (tr.touch c)
        ≤ sinkRisk prio ((series a).getD b0 0) (caps a) b0 lookB (tr.pickups a)
            puMult (tr.touch a)))
    sids).take topK

/-- `sorted(sids, key=_source_risk(...), reverse=True)[:top_k_sources]`. -/
def topSources (prio : ℤ → ℚ) (caps : ℕ → ℤ) (sids : List ℕ)
    (tr : BucketedTrips) (series : ℕ → List ℤ) (lookB : ℕ) (doMult : ℚ)
    (topK : ℕ) (b0 : ℕ) : List ℕ :=
  (sortStable (fun a c => decide
      (sourceRisk prio ((series c).getD b0 0) (caps c) b0 lookB (tr.dropoffs c)
          doMult (tr.touch c)
        ≤ sourceRisk prio ((series a).getD b0 0) (caps a) b0 lookB (tr.dropoffs a)
            doMult (tr.touch a)))
    sids).take topK

/-- The distance-constraint gate of a candidate: `none` when the candidate
is rejected (missing lat/lon, or farther than `max_pair_km`), otherwise the
`dkm` used by the distance penalty (0 when the penalty is disabled). -/
def distGate (cfg : PlannerCfg) (distKm : ℕ → ℕ → Option ℚ) (src snk : ℕ) :
    Option ℚ :=
  if cfg.useDist then
    match distKm src snk with
    | none => none
    | some d =>
      match cfg.maxPairKm with
      | some mx => if d > mx then none else some d
      | none => some d
  else some 0

/-- One candidate `(b0, src, snk)` of the greedy scan: `none` when the
candidate is skipped (donor floor, `snk == src`, receiver floor, distance
constraints, or `moved ≤ 0`), otherwise `some (improvement, moved)`. -/
def evalCand (caps : ℕ → ℤ) (distKm : ℕ → ℕ → Option ℚ) (clusterOf : ℕ → ℤ)
    (tr : BucketedTrips) (cfg : PlannerCfg) (lookB : ℕ) (series : ℕ → List ℤ)
    (b0 : ℕ) (src snk : ℕ) : Option (ℚ × ℤ) :=
  let bikesSrc := (series src).getD b0 0
  if bikesSrc ≤ cfg.donorMin then none
  else if snk = src then none
  else
    let bikesSnk := (series snk).getD b0 0
    let emptySnk := caps snk - bikesSnk
    if emptySnk ≤ cfg.receiverMin then none
    else
      match distGate cfg distKm src snk with
      | none => none
      | some dkm =>
        let moved := min (min cfg.truckCap (bikesSrc - cfg.donorMin))
          (emptySnk - cfg.receiverMin)
        if moved ≤ 0 then none
        else
          let baseSrc := clusteredCostFromBucket (clusterOf src) b0 bikesSrc
            (caps src) (tr.delta src) (tr.pickups src) (tr.dropoffs src) cfg.bm
            lookB cfg.puMult cfg.doMult cfg.wBike cfg.wDock cfg.useThr cfg.eThr
            cfg.fThr cfg.wE cfg.wF
          let baseSnk := clusteredCostFromBucket (clusterOf snk) b0 bikesSnk
            (caps snk) (tr.delta snk) (tr.pickups snk) (tr.dropoffs snk) cfg.bm
            lookB cfg.puMult cfg.doMult cfg.wBike cfg.wDock cfg.useThr cfg.eThr
            cfg.fThr cfg.wE cfg.wF
          let newSrc := clusteredCostFromBucket (clusterOf src) b0
            (bikesSrc - moved) (caps src) (tr.delta src) (tr.pickups src)
            (tr.dropoffs src) cfg.bm lookB cfg.puMult cfg.doMult cfg.wBike
            cfg.wDock cfg.useThr cfg.eThr cfg.fThr cfg.wE cfg.wF
          let newSnk := clusteredCostFromBucket (clusterOf snk) b0
            (bikesSnk + moved) (caps snk) (tr.delta snk) (tr.pickups snk)
            (tr.dropoffs snk) cfg.bm lookB cfg.puMult cfg.doMult cfg.wBike
            cfg.wDock cfg.useThr cfg.eThr cfg.fThr cfg.wE cfg.wF
          let improvement := (baseSrc + baseSnk) - (newSrc + newSnk)
          let improvement := if cfg.useDist = true ∧ dkm > 0
            then improvement - cfg.distPenaltyPerKm * dkm else improvement
          some (improvement, moved)

/-- Fold step of the `improvement > best_improvement + 1e-9` comparison. -/
def scanCand (caps : ℕ → ℤ) (distKm : ℕ → ℕ → Option ℚ) (clusterOf : ℕ → ℤ)
    (tr : BucketedTrips) (cfg : PlannerCfg) (lookB : ℕ) (series : ℕ → List ℤ)
    (b0 src snk : ℕ) (acc : ℚ × Option (ℕ × ℕ × ℕ × ℤ)) :
    ℚ × Option (ℕ × ℕ × ℕ × ℤ) :=
  match evalCand caps distKm clusterOf tr cfg lookB series b0 src snk with
  | none => acc
  | some (imp, moved) =>
    if imp > acc.1 + epsQ then (imp, some (b0, src, snk, moved)) else acc

/-- Scan all `(src, snk)` pairs of one candidate bucket. -/
def scanPairs (caps : ℕ → ℤ) (distKm : ℕ → ℕ → Option ℚ) (clusterOf : ℕ → ℤ)
    (tr : BucketedTrips) (cfg : PlannerCfg) (lookB : ℕ) (series : ℕ → List ℤ)
    (b0 : ℕ) (sources sinks : List ℕ) (acc : ℚ × Option (ℕ × ℕ × ℕ × ℤ)) :
    ℚ × Option (ℕ × ℕ × ℕ × ℤ) :=
  sources.foldl (fun acc2 src =>
    sinks.foldl (fun acc3 snk =>
      scanCand caps distKm clusterOf tr cfg lookB series b0 src snk acc3)
      acc2) acc

/-- Scan one candidate bucket: rank sinks and sources, then scan the pairs. -/
def scanBucket (prio : ℤ → ℚ) (caps : ℕ → ℤ) (distKm : ℕ → ℕ → Option ℚ)
    (clusterOf : ℕ → ℤ) (sids : List ℕ) (tr : BucketedTrips)
    (cfg : PlannerCfg) (lookB : ℕ) (series : ℕ → List ℤ)
    (acc : ℚ × Option (ℕ × ℕ × ℕ × ℤ)) (b0 : ℕ) :
    ℚ × Option (ℕ × ℕ × ℕ × ℤ) :=
  scanPairs caps distKm clusterOf tr cfg lookB series b0
    (topSources prio caps sids tr series lookB cfg.doMult cfg.topKSources b0)
    (topSinks prio caps sids tr series lookB cfg.puMult cfg.topKSinks b0) acc

/-- One pass of the greedy scan over all candidate buckets and station
pairs; returns `(best_improvement, best_choice)`. -/
def bestChoice (prio : ℤ → ℚ) (caps : ℕ → ℤ) (distKm : ℕ → ℕ → Option ℚ)
    (clusterOf : ℕ → ℤ) (sids : List ℕ) (tr : BucketedTrips)
    (cfg : PlannerCfg) (lookB : ℕ) (series : ℕ → List ℤ) (cands : List ℕ) :
    ℚ × Option (ℕ × ℕ × ℕ × ℤ) :=
  cands.foldl (scanBucket prio caps distKm clusterOf sids tr cfg lookB series)
    (0, none)

/-- Buffer-shortage "badness" of bucket `b` across all stations. -/
def badnessAt (caps : ℕ → ℤ) (sids : List ℕ) (tr : BucketedTrips)
    (series : ℕ → List ℤ) (lookB : ℕ) (puMult doMult : ℚ) (b : ℕ) : ℚ :=
  (sids.map (fun sid =>
    if caps sid ≤ 0 then 0
    else
      let x := (series sid).getD b 0
      let futPu := futureSum (tr.pickups sid) b lookB
      let futDo := futureSum (tr.dropoffs sid) b lookB
      max 0 (puMult * (futPu : ℚ) - (x : ℚ))
        + max 0 (doMult * (futDo : ℚ) - ((caps sid - x : ℤ) : ℚ)))).sum

/-- Candidate time buckets: top-badness buckets plus an hourly grid, deduped,
sorted ascending, and restricted to the service-window bucket range. -/
def candidateBuckets (caps : ℕ → ℤ) (sids : List ℕ) (tr : BucketedTrips)
    (series : ℕ → List ℤ) (lookB : ℕ) (puMult doMult : ℚ)
    (candTopK bm bStart bEnd bc : ℕ) : List ℕ :=
  let badness := (List.range' bStart (bEnd - bStart)).map
    (fun b => (badnessAt caps sids tr series lookB puMult doMult b, b))
  let top := ((sortStable pairDescQ badness).take (max 8 candTopK)).map
    (fun p => p.2)
  let step := max 1 (60 / bm)
  let grid := (List.range ((bEnd - bStart + step - 1) / step)).map
    (fun i => bStart + i * step)
  (List.range bc).filter (fun b =>
    decide (b ∈ top ++ grid) && decide (bStart ≤ b) && decide (b < bEnd))

/-- `resim_from_b0`: splice a freshly simulated tail from bucket `b0` into a
station's series and refresh its cached full-day cost. -/
def resimStation (caps : ℕ → ℤ) (tr : BucketedTrips) (cfg : PlannerCfg)
    (lookB : ℕ) (clusterOf : ℕ → ℤ) (b0 : ℕ) (sid : ℕ) (newX : ℤ)
    (series : ℕ → List ℤ) (costStation : ℕ → ℚ) : (ℕ → List ℤ) × (ℕ → ℚ) :=
  let snew := (series sid).take b0
    ++ simulateSeries newX (caps sid) ((tr.delta sid).drop b0)
  (fupd series sid snew,
    fupd costStation sid
      (clusteredCostFromBucket (clusterOf sid) 0 (snew.getD 0 0) (caps sid)
        (tr.delta sid) (tr.pickups sid) (tr.dropoffs sid) cfg.bm lookB
        cfg.puMult cfg.doMult cfg.wBike cfg.wDock cfg.useThr cfg.eThr cfg.fThr
        cfg.wE cfg.wF))

/-- State threaded through the greedy planning loop. -/
structure ClusterPlanState where
  series : ℕ → List ℤ
  costStation : ℕ → ℚ
  planned : List TruckMove

/-- The `for _ in range(moves_budget)` greedy loop: pick the best candidate,
stop when none clears the `1e-9` bar, otherwise commit it (resim `src` then
`snk`) and append the move at `t_min = b0 * bucket_minutes`. -/
def planLoopClustered (prio : ℤ → ℚ) (caps : ℕ → ℤ)
    (distKm : ℕ → ℕ → Option ℚ) (clusterOf : ℕ → ℤ) (sids : List ℕ)
    (tr : BucketedTrips) (cfg : PlannerCfg) (lookB : ℕ) (cands : List ℕ) :
    ℕ → ClusterPlanState → ClusterPlanState
  | 0, st => st
  | fuel + 1, st =>
    let r := bestChoice prio caps distKm clusterOf sids tr cfg lookB st.series
      cands
    match r.2 with
    | none => st
    | some (b0, src, snk, moved) =>
      if r.1 ≤ epsQ then st
      else
        let p1 := resimStation caps tr cfg lookB clusterOf b0 src
          ((st.series src).getD b0 0 - moved) st.series st.costStation
        let p2 := resimStation caps tr cfg lookB clusterOf b0 snk
          ((p1.1 snk).getD b0 0 + moved) p1.1 p1.2
        planLoopClustered prio caps distKm clusterOf sids tr cfg lookB cands
          fuel
          ⟨p2.1, p2.2,
            st.planned ++ [⟨src, snk, moved, some ((b0 * cfg.bm : ℕ) : ℤ)⟩]⟩

/-- Clustered `plan_truck_moves_for_day` over already-parsed trip rows. -/
def planTruckMovesClustered (prio : ℤ → ℚ) (caps : ℕ → ℤ) (sids : List ℕ)
    (distKm : ℕ → ℕ → Option ℚ) (clusterOf : ℕ → ℤ) (initial : ℕ → ℤ)
    (rows : List TripRow) (cfg : PlannerCfg) : List TruckMove :=
  if cfg.movesBudget = 0 then []
  else if sids = [] then []
  else
    let tr := bucketizeTrips sids cfg.bm rows
    let bc := tr.bucketCount
    if bc = 0 then []
    else
      let lookB := max 1 (cfg.lookaheadMinutes / cfg.bm)
      let bStart := cfg.serviceStartHour * 60 / cfg.bm
      let bEnd := min bc (cfg.serviceEndHour * 60 / cfg.bm)
      if bEnd ≤ bStart then []
      else
        let x0 : ℕ → ℤ := fun sid => clamp0 (caps sid) (initial sid)
        let series0 : ℕ → List ℤ := fun sid =>
          simulateSeries (x0 sid) (caps sid) (tr.delta sid)
        let cost0 : ℕ → ℚ := fun sid =>
          clusteredCostFromBucket (clusterOf sid) 0 ((series0 sid).getD 0 0)
            (caps sid) (tr.delta sid) (tr.pickups sid) (tr.dropoffs sid)
            cfg.bm lookB cfg.puMult cfg.doMult cfg.wBike cfg.wDock cfg.useThr
            cfg.eThr cfg.fThr cfg.wE cfg.wF
        let cands := candidateBuckets caps sids tr series0 lookB cfg.puMult
          cfg.doMult cfg.candTopK cfg.bm bStart bEnd bc
        let stF := planLoopClustered prio caps distKm clusterOf sids tr cfg
          lookB cands cfg.movesBudget ⟨series0, cost0, []⟩
        sortStable (fun a c => decide (a.tMin.getD 0 ≤ c.tMin.getD 0))
          stF.planned

theorem candidateBuckets_window (caps : ℕ → ℤ) (sids : List ℕ)
    (tr : BucketedTrips) (series : ℕ → List ℤ) (lookB : ℕ) (puMult doMult : ℚ)
    (candTopK bm bStart bEnd bc : ℕ) (b : ℕ)
    (hb : b ∈ candidateBuckets caps sids tr series lookB puMult doMult
      candTopK bm bStart bEnd bc) :
    bStart ≤ b ∧ b < bEnd := by
  rw [candidateBuckets] at hb
  rcases List.mem_filter.1 hb with ⟨_, hcond⟩
  simp only [Bool.and_eq_true, decide_eq_true_eq] at hcond
  exact ⟨hcond.1.2, hcond.2⟩

theorem scanCand_acc (caps : ℕ → ℤ) (distKm : ℕ → ℕ → Option ℚ)
    (clusterOf : ℕ → ℤ) (tr : BucketedTrips) (cfg : PlannerCfg) (lookB : ℕ)
    (series : ℕ → List ℤ) (P : ℕ → Prop) (b0 src snk : ℕ)
    (acc : ℚ × Option (ℕ × ℕ × ℕ × ℤ))
    (hacc : ∀ c, acc.2 = some c → P c.1) (hb0 : P b0) :
    ∀ c, (scanCand caps distKm clusterOf tr cfg lookB series b0 src snk
      acc).2 = some c → P c.1 := by
  intro c hc
  rw [scanCand] at hc
  cases hev : evalCand caps distKm clusterOf tr cfg lookB series b0 src snk with
  | none =>
    simp only [hev] at hc
    exact hacc c hc
  | some v =>
    obtain ⟨imp, mv⟩ := v
    simp only [hev] at hc
    by_cases himp : imp > acc.1 + epsQ
    · rw [if_pos himp] at hc
      obtain rfl : (b0, src, snk, mv) = c := Option.some.inj hc
      exact hb0
    · rw [if_neg himp] at hc
      exact hacc c hc

theorem scanPairs_acc (caps : ℕ → ℤ) (distKm : ℕ → ℕ → Option ℚ)
    (clusterOf : ℕ → ℤ) (tr : BucketedTrips) (cfg : PlannerCfg) (lookB : ℕ)
    (series : ℕ → List ℤ) (P : ℕ → Prop) (b0 : ℕ) (hb0 : P b0) :
    ∀ (sources sinks : List ℕ) (acc : ℚ × Option (ℕ × ℕ × ℕ × ℤ)),
      (∀ c, acc.2 = some c → P c.1) →
      ∀ c, (scanPairs caps distKm clusterOf tr cfg lookB series b0 sources
        sinks acc).2 = some c → P c.1 := by
  intro sources
  induction sources with
  | nil =>
    intro sinks acc hacc
    exact hacc
  | cons src rest ih =>
    intro sinks acc hacc
    rw [scanPairs, List.foldl_cons]
    have hinner : ∀ (sks : List ℕ) (a : ℚ × Option (ℕ × ℕ × ℕ × ℤ)),
        (∀ c, a.2 = some c → P c.1) →
        ∀ c, (sks.foldl (fun acc3 snk =>
          scanCand caps distKm clusterOf tr cfg lookB series b0 src snk acc3)
          a).2 = some c → P c.1 := by
      intro sks
      induction sks with
      | nil =>
        intro a ha
        exact ha
      | cons snk rest2 ih2 =>
        intro a ha
        rw [List.foldl_cons]
        exact ih2 _ (scanCand_acc caps distKm clusterOf tr cfg lookB series P
          b0 src snk a ha hb0)
    exact ih sinks _ (hinner sinks acc hacc)

theorem bestChoice_mem (prio : ℤ → ℚ) (caps : ℕ → ℤ)
    (distKm : ℕ → ℕ → Option ℚ) (clusterOf : ℕ → ℤ) (sids : List ℕ)
    (tr : BucketedTrips) (cfg : PlannerCfg) (lookB : ℕ) (series : ℕ → List ℤ)
    (cands : List ℕ) :
    ∀ c, (bestChoice prio caps distKm clusterOf sids tr cfg lookB series
      cands).2 = some c → c.1 ∈ cands := by
  rw [bestChoice]
  have h : ∀ (l : List ℕ), (∀ b, b ∈ l → b ∈ cands) →
      ∀ (acc : ℚ × Option (ℕ × ℕ × ℕ × ℤ)),
        (∀ c, acc.2 = some c → c.1 ∈ cands) →
        ∀ c, ((l.foldl (scanBucket prio caps distKm clusterOf sids tr cfg
          lookB series) acc)).2 = some c → c.1 ∈ cands := by
    intro l
    induction l with
    | nil =>
      intro _ acc hacc
      exact hacc
    | cons b0 rest ih =>
      intro hl acc hacc
      rw [List.foldl_cons]
      refine ih (fun b hb => hl b (List.mem_cons_of_mem b0 hb)) _ ?_
      rw [scanBucket]
      exact scanPairs_acc caps distKm clusterOf tr cfg lookB series _ b0
        (hl b0 (List.mem_cons_self b0 rest)) _ _ acc hacc
  intro c hc
  exact h cands (fun _ hb => hb) (0, none) (by intro c' hc'; cases hc') c hc

theorem planLoopClustered_moves (prio : ℤ → ℚ) (caps : ℕ → ℤ)
    (distKm : ℕ → ℕ → Option ℚ) (clusterOf : ℕ → ℤ) (sids : List ℕ)
    (tr : BucketedTrips) (cfg : PlannerCfg) (lookB : ℕ) (cands : List ℕ) :
    ∀ (fuel : ℕ) (st : ClusterPlanState),
      (∀ m ∈ st.planned, ∃ b0, b0 ∈ cands
        ∧ m.tMin = some ((b0 * cfg.bm : ℕ) : ℤ)) →
      ∀ m ∈ (planLoopClustered prio caps distKm clusterOf sids tr cfg lookB
        cands fuel st).planned,
        ∃ b0, b0 ∈ cands ∧ m.tMin = some ((b0 * cfg.bm : ℕ) : ℤ) := by
  intro fuel
  induction fuel with
  | zero =>
    intro st hst
    exact hst
  | succ f ih =>
    intro st hst
    simp only [planLoopClustered]
    cases hr : (bestChoice prio caps distKm clusterOf sids tr cfg lookB
      st.series cands).2 with
    | none =>
      simp only [hr]
      exact hst
    | some v =>
      obtain ⟨b0, src, snk, moved⟩ := v
      simp only [hr]
      by_cases hle : (bestChoice prio caps distKm clusterOf sids tr cfg lookB
        st.series cands).1 ≤ epsQ
      · rw [if_pos hle]
        exact hst
      · rw [if_neg hle]
        apply ih
        intro m hm
        rcases List.mem_append.1 hm with hm1 | hm2
        · exact hst m hm1
        · rcases List.mem_singleton.1 hm2 with rfl
          exact ⟨b0, bestChoice_mem prio caps distKm clusterOf sids tr cfg
            lookB st.series cands _ hr, rfl⟩

/-- C3 fails on the code: `bucket_minutes = 288` divides 1440 and the window
`[1, 24)` is valid, but the planner floors the window start to bucket
`⌊60·1/288⌋ = 0`, so with a full station 1 and an empty station 2 it returns
a move at `t_min = 0`, violating `60·service_start_hour ≤ t_min`. -/
theorem c3_counterexample :
    (planTruckMovesClustered (fun _ => 0) (fun _ => 10) [1, 2]
        (fun _ _ => none) (fun _ => -1) (fun s => if s = 1 then 10 else 0) []
        ⟨288, 1, 5, 3, 2, 180, 1, 1, 1, 7/5, true, 1/10, 9/10, 3/10, 3/5, 10,
          12, 12, false, 0, none, 1, 24⟩).map
        (fun m => (m.fromStation, m.toStation, m.bikes, m.tMin))
      = [(1, 2, 5, some 0)]
    ∧ bucketMinutesValid 288 ∧ (1 : ℕ) < 24 ∧ ¬ ((60 : ℤ) ≤ 0) := by
  refine ⟨by decide, by decide, by decide, by decide⟩

/-- C3 (amended): every move returned by the clustered planner sits on a
bucket boundary inside the *floored* service window: `t_min % bm = 0`,
`bm·⌊60·service_start_hour/bm⌋ ≤ t_min < 60·service_end_hour`; the claimed
lower bound `60·service_start_hour ≤ t_min` holds exactly when `bm` divides
`60·service_start_hour`. -/
theorem c3_planner_window (prio : ℤ → ℚ) (caps : ℕ → ℤ) (sids : List ℕ)
    (distKm : ℕ → ℕ → Option ℚ) (clusterOf : ℕ → ℤ) (initial : ℕ → ℤ)
    (rows : List TripRow) (cfg : PlannerCfg) (hbm : 0 < cfg.bm)
    (m : TruckMove)
    (hm : m ∈ planTruckMovesClustered prio caps sids distKm clusterOf initial
      rows cfg) :
    ∃ t : ℤ, m.tMin = some t
      ∧ t % (cfg.bm : ℤ) = 0
      ∧ ((cfg.serviceStartHour * 60 / cfg.bm * cfg.bm : ℕ) : ℤ) ≤ t
      ∧ t < ((cfg.serviceEndHour * 60 : ℕ) : ℤ)
      ∧ (cfg.bm ∣ cfg.serviceStartHour * 60 →
          ((cfg.serviceStartHour * 60 : ℕ) : ℤ) ≤ t) := by
  simp only [planTruckMovesClustered] at hm
  by_cases h1 : cfg.movesBudget = 0
  · rw [if_pos h1] at hm
    cases hm
  rw [if_neg h1] at hm
  by_cases h2 : sids = []
  · rw [if_pos h2] at hm
    cases hm
  rw [if_neg h2] at hm
  by_cases h3 : (bucketizeTrips sids cfg.bm rows).bucketCount = 0
  · rw [if_pos h3] at hm
    cases hm
  rw [if_neg h3] at hm
  by_cases h4 : min (bucketizeTrips sids cfg.bm rows).bucketCount
      (cfg.serviceEndHour * 60 / cfg.bm) ≤ cfg.serviceStartHour * 60 / cfg.bm
  · rw [if_pos h4] at hm
    cases hm
  rw [if_neg h4] at hm
  rw [mem_sortStable] at hm
  have hinv := planLoopClustered_moves prio caps distKm clusterOf sids
    (bucketizeTrips sids cfg.bm rows) cfg (max 1 (cfg.lookaheadMinutes / cfg.bm))
    _ cfg.movesBudget _ (by intro m' hm0; cases hm0) m hm
  obtain ⟨b0, hb0c, htm⟩ := hinv
  have hwin := candidateBuckets_window caps sids (bucketizeTrips sids cfg.bm rows)
    _ (max 1 (cfg.lookaheadMinutes / cfg.bm)) cfg.puMult cfg.doMult
    cfg.candTopK cfg.bm (cfg.serviceStartHour * 60 / cfg.bm)
    (min (bucketizeTrips sids cfg.bm rows).bucketCount
      (cfg.serviceEndHour * 60 / cfg.bm))
    (bucketizeTrips sids cfg.bm rows).bucketCount b0 hb0c
  refine ⟨((b0 * cfg.bm : ℕ) : ℤ), htm, ?_, ?_, ?_, ?_⟩
  · have hn : (b0 * cfg.bm) % cfg.bm = 0 := by simp
    exact_mod_cast hn
  · have hn : cfg.serviceStartHour * 60 / cfg.bm * cfg.bm ≤ b0 * cfg.bm :=
      Nat.mul_le_mul_right cfg.bm hwin.1
    exact_mod_cast hn
  · have h5 : b0 + 1 ≤ cfg.serviceEndHour * 60 / cfg.bm :=
      Nat.lt_of_lt_of_le hwin.2 (min_le_right _ _)
    have h6 : (b0 + 1) * cfg.bm ≤ cfg.serviceEndHour * 60 / cfg.bm * cfg.bm :=
      Nat.mul_le_mul_right cfg.bm h5
    have h7 : cfg.serviceEndHour * 60 / cfg.bm * cfg.bm
        ≤ cfg.serviceEndHour * 60 := Nat.div_mul_le_self _ _
    have h8 : b0 * cfg.bm < cfg.serviceEndHour * 60 := by
      have h9 : b0 * cfg.bm + cfg.bm = (b0 + 1) * cfg.bm := by ring
      omega
    exact_mod_cast h8
  · intro hdvd
    have hn : cfg.serviceStartHour * 60 / cfg.bm * cfg.bm
        = cfg.serviceStartHour * 60 := Nat.div_mul_cancel hdvd
    have hn2 : cfg.serviceStartHour * 60 / cfg.bm * cfg.bm ≤ b0 * cfg.bm :=
      Nat.mul_le_mul_right cfg.bm hwin.1
    have hn3 : cfg.serviceStartHour * 60 ≤ b0 * cfg.bm := by omega
    exact_mod_cast hn3

theorem c3_witness :
    ∃ t : ℤ,
      (⟨1, 2, 5, some 0⟩ : TruckMove).tMin = some t
      ∧ t % ((288 : ℕ) : ℤ) = 0
      ∧ ((1 * 60 / 288 * 288 : ℕ) : ℤ) ≤ t
      ∧ t < ((24 * 60 : ℕ) : ℤ)
      ∧ ((288 : ℕ) ∣ 1 * 60 → ((1 * 60 : ℕ) : ℤ) ≤ t) :=
  c3_planner_window (fun _ => 0) (fun _ => 10) [1, 2] (fun _ _ => none)
    (fun _ => -1) (fun s => if s = 1 then 10 else 0) []
    ⟨288, 1, 5, 3, 2, 180, 1, 1, 1, 7/5, true, 1/10, 9/10, 3/10, 3/5, 10,
      12, 12, false, 0, none, 1, 24⟩
    (by decide) ⟨1, 2, 5, some 0⟩ (by decide)

/-- C8: for every candidate `(b0, src, snk)`, a committed evaluation carries
exactly `moved = min(truck_cap, x_src[b0] − donor_min_bikes_left,
(cap_snk − x_snk[b0]) − receiver_min_empty_docks_left)` with `moved > 0` and
`snk ≠ src`, and whenever that min is `≤ 0` the candidate is skipped; in
spec Scenario 2 (A cap 10 full, B cap 10 empty, no trips, K = 1, T = 5,
service window [0, 24)) the planner returns exactly one move A→B of
`min(5, 10−3, (10−0)−2) = 5` bikes at bucket 0, and replaying it gives
A = 5 and B = 5. -/
theorem c8_moved_formula :
    (∀ (caps : ℕ → ℤ) (distKm : ℕ → ℕ → Option ℚ) (clusterOf : ℕ → ℤ)
        (tr : BucketedTrips) (cfg : PlannerCfg) (lookB : ℕ)
        (series : ℕ → List ℤ) (b0 src snk : ℕ) (imp : ℚ) (mv : ℤ),
        evalCand caps distKm clusterOf tr cfg lookB series b0 src snk
            = some (imp, mv) →
          mv = min (min cfg.truckCap ((series src).getD b0 0 - cfg.donorMin))
              (caps snk - (series snk).getD b0 0 - cfg.receiverMin)
            ∧ 0 < mv ∧ snk ≠ src)
    ∧ (∀ (caps : ℕ → ℤ) (distKm : ℕ → ℕ → Option ℚ) (clusterOf : ℕ → ℤ)
        (tr : BucketedTrips) (cfg : PlannerCfg) (lookB : ℕ)
        (series : ℕ → List ℤ) (b0 src snk : ℕ),
        min (min cfg.truckCap ((series src).getD b0 0 - cfg.donorMin))
            (caps snk - (series snk).getD b0 0 - cfg.receiverMin) ≤ 0 →
        evalCand caps distKm clusterOf tr cfg lookB series b0 src snk = none)
    ∧ (planTruckMovesClustered (fun _ => 0) (fun _ => 10) [1, 2]
          (fun _ _ => none) (fun _ => -1) (fun s => if s = 1 then 10 else 0) []
          ⟨288, 1, 5, 3, 2, 180, 1, 1, 1, 7/5, true, 1/10, 9/10, 3/10, 3/5, 10,
            12, 12, false, 0, none, 0, 24⟩).map
          (fun m => (m.fromStation, m.toStation, m.bikes, m.tMin))
        = [(1, 2, 5, some 0)]
    ∧ (5 : ℤ) = min (min 5 (10 - 3)) (10 - 0 - 2)
    ∧ (buildStationStateByHour (fun _ => 10) [1, 2]
        (fun s => if s = 1 then 10 else 0) [] 288 [⟨1, 2, 5, some 0⟩]
        none).snaps 0 1 = 5
    ∧ (buildStationStateByHour (fun _ => 10) [1, 2]
        (fun s => if s = 1 then 10 else 0) [] 288 [⟨1, 2, 5, some 0⟩]
        none).snaps 0 2 = 5 := by
  refine ⟨?_, ?_, by decide, by decide, by decide, by decide⟩
  · intro caps distKm clusterOf tr cfg lookB series b0 src snk imp mv h
    simp only [evalCand] at h
    by_cases h1 : (series src).getD b0 0 ≤ cfg.donorMin
    · rw [if_pos h1] at h
      cases h
    rw [if_neg h1] at h
    by_cases h2 : snk = src
    · rw [if_pos h2] at h
      cases h
    rw [if_neg h2] at h
    by_cases h3 : caps snk - (series snk).getD b0 0 ≤ cfg.receiverMin
    · rw [if_pos h3] at h
      cases h
    rw [if_neg h3] at h
    cases hd : distGate cfg distKm src snk with
    | none =>
      simp only [hd] at h
      cases h
    | some dkm =>
      simp only [hd] at h
      by_cases h5 : min (min cfg.truckCap ((series src).getD b0 0
          - cfg.donorMin)) (caps snk - (series snk).getD b0 0
            - cfg.receiverMin) ≤ 0
      · rw [if_pos h5] at h
        cases h
      · rw [if_neg h5] at h
        rw [Option.some.injEq, Prod.mk.injEq] at h
        refine ⟨h.2.symm, ?_, h2⟩
        rw [← h.2]
        exact not_le.mp h5
  · intro caps distKm clusterOf tr cfg lookB series b0 src snk hmin
    simp only [evalCand]
    by_cases h1 : (series src).getD b0 0 ≤ cfg.donorMin
    · rw [if_pos h1]
    rw [if_neg h1]
    by_cases h2 : snk = src
    · rw [if_pos h2]
    rw [if_neg h2]
    by_cases h3 : caps snk - (series snk).getD b0 0 ≤ cfg.receiverMin
    · rw [if_pos h3]
    rw [if_neg h3]
    cases hd : distGate cfg distKm src snk with
    | none =>
      simp [hd]
    | some dkm =>
      simp only [hd]
      rw [if_pos hmin]
